import Mathlib

/-!
# Contour: the Service APIs processor of the DAG builder

A shallow embedding of `internal/dag/serviceapis_processor.go`
(`ServiceAPIsProcessor.Run`, `computeHTTPRoute`, `routes`) together with the
parts of the DAG builder and of the Service APIs types that the processor uses,
and of `serveContext.proxyRootNamespaces` from `cmd/contour`.

Go slices are Lean lists (a nil slice is the empty list), Go pointers that may
be nil are `Option`s, and the logger embedded in the processor is the list of
the entries logged so far.
-/

set_option autoImplicit false

namespace Contour

/-! ## Service APIs types (sigs.k8s.io/service-apis v1alpha1), as far as the processor reads them -/

/-- The type of a path match, a string in Go. -/
abbrev PathMatchType := String

/-- The constant `serviceapis.PathMatchPrefix`. -/
def PathMatchPrefix : PathMatchType := "Prefix"

/-- The fields `Type` (here `Type_`, `Type` being a keyword) and `Value` of `HTTPPathMatch`. -/
structure HTTPPathMatch where
  Type_ : PathMatchType
  Value : String
deriving DecidableEq, Repr

/-- An `HTTPRouteMatch`; the processor reads only its `Path`. -/
structure HTTPRouteMatch where
  Path : HTTPPathMatch
deriving DecidableEq, Repr

/-- An `HTTPRouteForwardTo`; `ServiceName` is a `*string`, `Port` an int32 port number. -/
structure HTTPRouteForwardTo where
  ServiceName : Option String
  Port : Int
deriving DecidableEq, Repr

/-- An `HTTPRouteRule`. -/
structure HTTPRouteRule where
  Matches : List HTTPRouteMatch
  ForwardTo : List HTTPRouteForwardTo
deriving DecidableEq, Repr

/-- A `RouteTLSConfig`; the processor only tests the pointer to it for nil. -/
structure RouteTLSConfig where
  CertificateRef : String
deriving DecidableEq, Repr

/-- An `HTTPRouteSpec`. -/
structure HTTPRouteSpec where
  Hostnames : List String
  TLS : Option RouteTLSConfig
  Rules : List HTTPRouteRule
deriving DecidableEq, Repr

/-- An `HTTPRoute`: the namespace of its object metadata and its spec. -/
structure HTTPRoute where
  Namespace : String
  Spec : HTTPRouteSpec
deriving DecidableEq, Repr

/-- A `types.NamespacedName`. -/
structure NamespacedName where
  Name : String
  Namespace : String
deriving DecidableEq, Repr

/-! ## DAG objects -/

/-- Modelled from the spec: the `Service` type is not under src/. A resolved
(namespace, name, port) upstream reference with a protocol tag copied from its
Kubernetes counterpart. -/
structure Service where
  Namespace : String
  Name : String
  Port : Int
  Protocol : String
deriving DecidableEq, Repr

/-- Modelled from the spec: the `Cluster` type is not under src/. A reference to
one service plus protocol; the fields are the two that `routes` sets (every other
field keeps its zero value). -/
structure Cluster where
  Upstream : Service
  Protocol : String
deriving DecidableEq, Repr

/-- Modelled from the spec: the `PrefixMatchCondition` type is not under src/. The
prefix path-match condition of a route, with the field `routes` sets. -/
structure PrefixMatchCondition where
  Prefix : String
deriving DecidableEq, Repr

/-- Modelled from the spec: the `Route` type is not under src/. A route is
identified by a path-match condition and holds an ordered list of clusters; the
fields are the two that `routes` sets, the path match condition (a pointer to a
`PrefixMatchCondition` behind an interface, nil in the zero value) and the
clusters. -/
structure Route where
  PathMatchCondition : Option PrefixMatchCondition
  Clusters : List Cluster
deriving DecidableEq, Repr

/-- The method `routes` of `ServiceAPIsProcessor`: one cluster per service, then
one route per path prefix, every route holding the whole cluster list. The
receiver is not used. -/
def routes (pathPrefixes : List String) (services : List Service) : List Route :=
  let clusters : List Cluster :=
    services.foldl (fun clusters service =>
      clusters ++ [{ Upstream := service, Protocol := service.Protocol }]) []
  pathPrefixes.foldl (fun routes pfx =>
    routes ++ [{ PathMatchCondition := some { Prefix := pfx }, Clusters := clusters }]) []

/-- Modelled from the spec: the `VirtualHost` type is not under src/. A virtual
host is identified by its hostname (the processor only creates insecure virtual
hosts, so the secure flag of the key is left out) and holds a set of routes with
at most one route per match condition, here in the order in which the
conditions were first added. -/
structure VirtualHost where
  Name : String
  routes : List Route
deriving DecidableEq, Repr

/-- Modelled from the spec: the set of routes of a virtual host holds at most one
route per match condition. A route is stored under its match condition: a route
already held under the same condition is replaced, otherwise the route is
appended. -/
def insertRoute (route : Route) : List Route → List Route
  | [] => [route]
  | r :: rs =>
    if r.PathMatchCondition = route.PathMatchCondition then route :: rs
    else r :: insertRoute route rs

/-- Modelled from the spec: `VirtualHost.addRoute` is not under src/. It puts
the route into the virtual host's set of routes, which holds at most one route
per match condition. The call in `computeHTTPRoute` yields no result, so a route
whose condition is already present cannot be refused there: it takes the place
of the route held under that condition. -/
def VirtualHost.addRoute (v : VirtualHost) (route : Route) : VirtualHost :=
  { v with routes := insertRoute route v.routes }

/-- Modelled from the spec: the route a virtual host holds under a match condition. -/
def VirtualHost.route? (v : VirtualHost) (cond : Option PrefixMatchCondition) : Option Route :=
  v.routes.find? (fun r => decide (r.PathMatchCondition = cond))

/-- Modelled from the spec: the `DAG` type is not under src/. The graph owns
the mapping from hostname to virtual host (in order of creation) and the table
of the services resolved so far in this build. -/
structure DAG where
  services : List Service
  virtualhosts : List VirtualHost
deriving DecidableEq, Repr

/-- Modelled from the spec: the fresh empty graph a build starts from. -/
def DAG.empty : DAG := { services := [], virtualhosts := [] }

/-- Modelled from the spec: the virtual host the graph maps a hostname to. -/
def DAG.GetVirtualHost (d : DAG) (hostname : String) : Option VirtualHost :=
  d.virtualhosts.find? (fun v => decide (v.Name = hostname))

/-- Modelled from the spec: `DAG.EnsureVirtualHost` is not under src/. It
"returns the existing VirtualHost for a key or creates and registers a new one".
The pointer it returns is the hostname under which the virtual host is
registered in the returned graph. -/
def DAG.EnsureVirtualHost (d : DAG) (hostname : String) : DAG :=
  match d.GetVirtualHost hostname with
  | some _ => d
  | none => { d with virtualhosts := d.virtualhosts ++ [{ Name := hostname, routes := [] }] }

/-- Modelled from the spec: a write through the pointer to the virtual host
registered under `hostname`, as `vhost.addRoute(route)` is on the result of
`EnsureVirtualHost`. -/
def DAG.updateVirtualHost (d : DAG) (hostname : String) (f : VirtualHost → VirtualHost) : DAG :=
  { d with virtualhosts := d.virtualhosts.map (fun v => if v.Name = hostname then f v else v) }

/-- Modelled from the spec: the `KubernetesCache` type is not under src/. The
snapshot holds the services of the cluster, one entry per (namespace, name,
port) with the protocol tag of that port, and the HTTPRoutes, in the order in
which `Run` ranges over them. -/
structure KubernetesCache where
  services : List Service
  httproutes : List HTTPRoute
deriving DecidableEq, Repr

/-- Modelled from the spec: the lookup of a service in the snapshot by name and
port number, failing with service not found when the snapshot has no service of
that name, and with port not found when it has one but not with that port. -/
def KubernetesCache.LookupService (cache : KubernetesCache) (meta : NamespacedName) (port : Int) :
    Except String Service :=
  match cache.services.find? (fun s =>
      decide (s.Namespace = meta.Namespace ∧ s.Name = meta.Name ∧ s.Port = port)) with
  | some s => .ok s
  | none =>
    if cache.services.any (fun s => decide (s.Namespace = meta.Namespace ∧ s.Name = meta.Name))
    then .error "port not found"
    else .error "service not found"

/-- Modelled from the spec: the service the graph has memoized for a name and
port number. -/
def DAG.GetService (d : DAG) (meta : NamespacedName) (port : Int) : Option Service :=
  d.services.find? (fun s =>
    decide (s.Namespace = meta.Namespace ∧ s.Name = meta.Name ∧ s.Port = port))

/-- Modelled from the spec: `DAG.EnsureService` is not under src/. It "resolves
a Service exactly once per unique (name, port) per build, memoizing the result;
it fails with a service not found error if the snapshot has no matching object,
or port not found if the object exists but lacks the named/numbered port". On
failure the graph is left as it was. -/
def DAG.EnsureService (d : DAG) (meta : NamespacedName) (port : Int) (cache : KubernetesCache) :
    Except String (Service × DAG) :=
  match cache.LookupService meta port with
  | .error e => .error e
  | .ok svc =>
    match d.GetService meta port with
    | some dagSvc => .ok (dagSvc, d)
    | none => .ok (svc, { d with services := d.services ++ [svc] })

/-- Modelled from the spec: `stringOrDefault` is not under src/. The string,
or the default when the string is empty. -/
def stringOrDefault (s : String) (defaultValue : String) : String :=
  if s = "" then defaultValue else s

/-! ## The processor -/

/-- One call of the processor's logger at error level: the format (or the
message, for `Error`) and the arguments passed to it. -/
structure LogEntry where
  format : String
  args : List String
deriving DecidableEq, Repr

/-- The message logged for a route with a TLS configuration. -/
def msgTLS : String := "NOT IMPLEMENTED: The 'RouteTLSConfig' is not yet implemented."

/-- The message logged for a match that is not a prefix match. -/
def msgMatch : String := "NOT IMPLEMENTED: Only PathMatchPrefix is currently implemented."

/-- The message logged for a forwarding target without a service name. -/
def msgServiceName : String :=
  "ServiceName must be specified and is currently only type implemented!"

/-- The format logged for a service that cannot be resolved. -/
def fmtService : String := "Service %q does not exist in namespace %q"

/-- The processor: the entries its embedded `logrus.FieldLogger` has received,
and the fields `dag` and `source`. -/
structure ServiceAPIsProcessor where
  logged : List LogEntry
  dag : DAG
  source : KubernetesCache
deriving DecidableEq, Repr

/-- The call `p.Error(msg)` with one string argument. -/
def ServiceAPIsProcessor.Error (p : ServiceAPIsProcessor) (msg : String) : ServiceAPIsProcessor :=
  { p with logged := p.logged ++ [{ format := msg, args := [] }] }

/-- The call `p.Errorf(format, args...)`. -/
def ServiceAPIsProcessor.Errorf (p : ServiceAPIsProcessor) (format : String) (args : List String) :
    ServiceAPIsProcessor :=
  { p with logged := p.logged ++ [{ format := format, args := args }] }

/-- The hosts of a route (lines 56-65): `"*"` when the route has no hostnames,
else its hostnames. -/
def hostsOf (route : HTTPRoute) : List String :=
  if route.Spec.Hostnames.length = 0 then [] ++ ["*"]
  else route.Spec.Hostnames.foldl (fun hosts host => hosts ++ [host]) []

/-- The loop over `rule.Matches` (lines 72-79), from the path prefixes collected
so far: a prefix match appends its value (or `"/"`), any other match logs an error. -/
def matchLoop (p : ServiceAPIsProcessor) :
    List HTTPRouteMatch → List String → ServiceAPIsProcessor × List String
  | [], pathPrefixes => (p, pathPrefixes)
  | m :: rest, pathPrefixes =>
    if m.Path.Type_ = PathMatchPrefix then
      matchLoop p rest (pathPrefixes ++ [stringOrDefault m.Path.Value "/"])
    else
      matchLoop (p.Error msgMatch) rest pathPrefixes

/-- The loop over `rule.ForwardTo` (lines 81-97), from the services collected so
far. The result is `none` when the loop left `computeHTTPRoute` by `return`, and
the services collected when it ran to its end or was left by `break`. -/
def forwardLoop (p : ServiceAPIsProcessor) (ns : String) :
    List HTTPRouteForwardTo → List Service → ServiceAPIsProcessor × Option (List Service)
  | [], services => (p, some services)
  | forward :: rest, services =>
    match forward.ServiceName with
    | none => (p.Error msgServiceName, some services)
    | some name =>
      let meta : NamespacedName := { Name := name, Namespace := ns }
      match p.dag.EnsureService meta forward.Port p.source with
      | .error _ => (p.Errorf fmtService [meta.Name, meta.Namespace], none)
      | .ok (service, dag) => forwardLoop { p with dag := dag } ns rest (services ++ [service])

/-- The loop over `hosts` (lines 101-106): every route is added to the virtual
host ensured for each host. -/
def hostsLoop (d : DAG) (hosts : List String) (rs : List Route) : DAG :=
  hosts.foldl (fun d vhost =>
    (d.EnsureVirtualHost vhost).updateVirtualHost vhost
      (fun v => rs.foldl (fun v route => v.addRoute route) v)) d

/-- The first part of the body of the loop over `route.Spec.Rules` (lines
69-99): the matches and the forwarding targets of the rule are gone through and
the routes of the rule are built. The result is `none` when `computeHTTPRoute`
was left by `return`. -/
def ruleRoutes (p : ServiceAPIsProcessor) (ns : String) (rule : HTTPRouteRule) :
    ServiceAPIsProcessor × Option (List Route) :=
  match matchLoop p rule.Matches [] with
  | (p1, pathPrefixes) =>
    match forwardLoop p1 ns rule.ForwardTo [] with
    | (p2, none) => (p2, none)
    | (p2, some services) => (p2, some (routes pathPrefixes services))

/-- The loop over `route.Spec.Rules` (lines 67-107): the routes of each rule are
added under every host, until the rules are exhausted or one of them returns. -/
def rulesLoop (hosts : List String) (ns : String) :
    ServiceAPIsProcessor → List HTTPRouteRule → ServiceAPIsProcessor
  | p, [] => p
  | p, rule :: rest =>
    match ruleRoutes p ns rule with
    | (p2, none) => p2
    | (p2, some rs) => rulesLoop hosts ns { p2 with dag := hostsLoop p2.dag hosts rs } rest

/-- The method `computeHTTPRoute`. -/
def computeHTTPRoute (p : ServiceAPIsProcessor) (route : HTTPRoute) : ServiceAPIsProcessor :=
  let p0 := if route.Spec.TLS ≠ none then p.Error msgTLS else p
  rulesLoop (hostsOf route) route.Namespace p0 route.Spec.Rules

/-- The method `Run`: the processor takes the graph and the snapshot and
computes every HTTPRoute of the snapshot. The result is the processor before
the deferred reset of its fields: the graph it has written to stays with the
caller. -/
def Run (logged : List LogEntry) (dag : DAG) (source : KubernetesCache) : ServiceAPIsProcessor :=
  source.httproutes.foldl computeHTTPRoute { logged := logged, dag := dag, source := source }

/-! ## Notions used to state the properties -/

/-- Whether a match is a prefix match. -/
def isPrefixMatch (m : HTTPRouteMatch) : Bool := decide (m.Path.Type_ = PathMatchPrefix)

/-- Whether the loop over the forwarding targets comes to a named target that
the snapshot cannot resolve before it comes to a target without a name: the
case in which `EnsureService` returns an error. -/
def reachesUnresolved (source : KubernetesCache) (ns : String) : List HTTPRouteForwardTo → Bool
  | [] => false
  | forward :: rest =>
    match forward.ServiceName with
    | none => false
    | some name =>
      match source.LookupService { Name := name, Namespace := ns } forward.Port with
      | .error _ => true
      | .ok _ => reachesUnresolved source ns rest

/-- The clusters of a graph: those of the routes of its virtual hosts. -/
def DAG.clusters (d : DAG) : List Cluster :=
  d.virtualhosts.flatMap (fun v => v.routes.flatMap (fun r => r.Clusters))

/-- The entry logged for a match that is not a prefix match. -/
def entryMatch : LogEntry := { format := msgMatch, args := [] }

/-- The entry logged for a forwarding target without a service name. -/
def entryServiceName : LogEntry := { format := msgServiceName, args := [] }

/-- The entry logged for a route with a TLS configuration. -/
def entryTLS : LogEntry := { format := msgTLS, args := [] }

/-- The entry logged for a service that cannot be resolved. -/
def entryService (name ns : String) : LogEntry := { format := fmtService, args := [name, ns] }

/-- The entries the loop over the matches logs: one for each match that is not
a prefix match. -/
def matchLog (ms : List HTTPRouteMatch) : List LogEntry :=
  (ms.filter (fun m => !isPrefixMatch m)).map (fun _ => entryMatch)

/-- The entry the loop over the forwarding targets logs, if any: for the first
target that has no name or cannot be resolved. -/
def forwardLog (source : KubernetesCache) (ns : String) : List HTTPRouteForwardTo → List LogEntry
  | [] => []
  | forward :: rest =>
    match forward.ServiceName with
    | none => [entryServiceName]
    | some name =>
      match source.LookupService { Name := name, Namespace := ns } forward.Port with
      | .error _ => [entryService name ns]
      | .ok _ => forwardLog source ns rest

/-- The entries logged for the rules of a route: those of each rule in turn, up
to and including the first rule that comes to a target it cannot resolve. -/
def rulesLog (source : KubernetesCache) (ns : String) : List HTTPRouteRule → List LogEntry
  | [] => []
  | rule :: rest =>
    matchLog rule.Matches ++ forwardLog source ns rule.ForwardTo ++
      (if reachesUnresolved source ns rule.ForwardTo then [] else rulesLog source ns rest)

/-- The entries logged for a route. -/
def routeLog (source : KubernetesCache) (route : HTTPRoute) : List LogEntry :=
  (if route.Spec.TLS ≠ none then [entryTLS] else []) ++
    rulesLog source route.Namespace route.Spec.Rules

/-- The entries of a log whose format is that of the unresolved service error. -/
def serviceErrors (l : List LogEntry) : List LogEntry :=
  l.filter (fun e => decide (e.format = fmtService))

/-- The route with its rules replaced by the given rules. -/
def HTTPRoute.withRules (route : HTTPRoute) (rules : List HTTPRouteRule) : HTTPRoute :=
  { route with Spec := { route.Spec with Rules := rules } }

/-- The route without its TLS configuration. -/
def HTTPRoute.withoutTLS (route : HTTPRoute) : HTTPRoute :=
  { route with Spec := { route.Spec with TLS := none } }

/-! ## Notions used to compare visiting orders -/

/-- The services the graph has memoized are those the snapshot gives for their
names and ports, as is the case in a graph built from that snapshot. -/
def DAG.memoAgrees (d : DAG) (source : KubernetesCache) : Prop :=
  ∀ meta port s, d.GetService meta port = some s → source.LookupService meta port = .ok s

/-- The services of the forwarding targets, resolved against the snapshot alone:
`none` when a named target cannot be resolved before a target without a name
is come to. -/
def resolveTargets (source : KubernetesCache) (ns : String) :
    List HTTPRouteForwardTo → List Service → Option (List Service)
  | [], services => some services
  | forward :: rest, services =>
    match forward.ServiceName with
    | none => some services
    | some name =>
      match source.LookupService { Name := name, Namespace := ns } forward.Port with
      | .error _ => none
      | .ok s => resolveTargets source ns rest (services ++ [s])

/-- The path prefixes of the prefix matches of a rule. -/
def pathPrefixesOfRule (rule : HTTPRouteRule) : List String :=
  (rule.Matches.filter isPrefixMatch).map (fun m => stringOrDefault m.Path.Value "/")

/-- The routes of a rule, from the snapshot alone. -/
def routesOfRule (source : KubernetesCache) (ns : String) (rule : HTTPRouteRule) :
    Option (List Route) :=
  (resolveTargets source ns rule.ForwardTo []).map (routes (pathPrefixesOfRule rule))

/-- The path prefixes of the prefix matches of all rules of a route. -/
def pathPrefixesOf (route : HTTPRoute) : List String :=
  route.Spec.Rules.flatMap pathPrefixesOfRule

/-- The route the graph holds under a hostname and a match condition. -/
def DAG.GetRoute (d : DAG) (hostname : String) (cond : Option PrefixMatchCondition) :
    Option Route :=
  (d.GetVirtualHost hostname).bind (fun v => v.route? cond)

/-- What adding routes does to the route held under one match condition. -/
def routeAt (cond : Option PrefixMatchCondition) (held : Option Route) (rs : List Route) :
    Option Route :=
  rs.foldl (fun held r => if r.PathMatchCondition = cond then some r else held) held

/-- What the loop over the hosts does to the route held under one hostname and
one match condition. -/
def hostsAt (hostname : String) (cond : Option PrefixMatchCondition) (hosts : List String)
    (rs : List Route) (held : Option Route) : Option Route :=
  hosts.foldl (fun held h => if hostname = h then routeAt cond held rs else held) held

/-- What the loop over the rules does to the route held under one hostname and
one match condition. -/
def rulesAt (source : KubernetesCache) (hostname : String) (cond : Option PrefixMatchCondition)
    (hosts : List String) (ns : String) : List HTTPRouteRule → Option Route → Option Route
  | [], held => held
  | rule :: rest, held =>
    match routesOfRule source ns rule with
    | none => held
    | some rs => rulesAt source hostname cond hosts ns rest (hostsAt hostname cond hosts rs held)

/-- What `computeHTTPRoute` does to the route held under one hostname and one
match condition. -/
def computeAt (source : KubernetesCache) (hostname : String) (cond : Option PrefixMatchCondition)
    (held : Option Route) (route : HTTPRoute) : Option Route :=
  rulesAt source hostname cond (hostsOf route) route.Namespace route.Spec.Rules held

/-- Whether `computeHTTPRoute` leaves a virtual host under a hostname: the
hostname is a host of the route and the first rule is gone through. -/
def ensuresHost (source : KubernetesCache) (hostname : String) (route : HTTPRoute) : Bool :=
  decide (hostname ∈ hostsOf route) &&
    match route.Spec.Rules with
    | [] => false
    | rule :: _ => !reachesUnresolved source route.Namespace rule.ForwardTo

/-! ## The root namespaces of `contour serve` -/

/-- The white space of Go's `unicode.IsSpace`: tab, line feed, vertical tab, form
feed, carriage return, space, U+0085, U+00A0 and the code points of category Z. -/
def isSpace (c : Char) : Bool :=
  c.toNat = 0x09 || c.toNat = 0x0A || c.toNat = 0x0B || c.toNat = 0x0C || c.toNat = 0x0D ||
  c.toNat = 0x20 || c.toNat = 0x85 || c.toNat = 0xA0 || c.toNat = 0x1680 ||
  (0x2000 ≤ c.toNat && c.toNat ≤ 0x200A) || c.toNat = 0x2028 || c.toNat = 0x2029 ||
  c.toNat = 0x202F || c.toNat = 0x205F || c.toNat = 0x3000

/-- Go's `strings.TrimSpace`, on the code points of a string: the leading and the
trailing white space are removed. -/
def TrimSpace (s : List Char) : List Char :=
  ((s.dropWhile isSpace).reverse.dropWhile isSpace).reverse

/-- Go's `strings.Split(s, ",")`, on the code points of a string: the fields
between the commas, one more than there are commas. -/
def SplitComma : List Char → List (List Char)
  | [] => [[]]
  | c :: cs =>
    if c = ',' then [] :: SplitComma cs
    else
      match SplitComma cs with
      | [] => [[c]]
      | f :: fs => (c :: f) :: fs

/-- Modelled from the spec: `serveContext.proxyRootNamespaces` is not under src/,
only its test `TestServeContextProxyRootNamespaces` is. It returns nil (the
empty list) when the string `rootNamespaces` is empty or consists only of white
space, and otherwise the comma-separated fields of the string in order, each
with its leading and trailing white space removed. -/
def proxyRootNamespaces (rootNamespaces : String) : List String :=
  if TrimSpace rootNamespaces.data = [] then []
  else (SplitComma rootNamespaces.data).map (fun f => String.mk (TrimSpace f))

/-! ## Inputs at which the properties are evaluated -/

/-- The service `svc:80` of namespace `default`. -/
def svc80 : Service := { Namespace := "default", Name := "svc", Port := 80, Protocol := "" }

/-- A second service, `other:8080` of namespace `default`. -/
def other8080 : Service :=
  { Namespace := "default", Name := "other", Port := 8080, Protocol := "h2" }

/-- A snapshot with the two services and no HTTPRoute. -/
def cache0 : KubernetesCache := { services := [svc80, other8080], httproutes := [] }

/-- A processor on the empty graph and the snapshot `cache0`. -/
def proc0 : ServiceAPIsProcessor := { logged := [], dag := DAG.empty, source := cache0 }

/-- A prefix match. -/
def prefixMatch (value : String) : HTTPRouteMatch :=
  { Path := { Type_ := PathMatchPrefix, Value := value } }

/-- A forwarding target naming a service. -/
def forwardTo (name : String) (port : Int) : HTTPRouteForwardTo :=
  { ServiceName := some name, Port := port }

/-- An HTTPRoute of namespace `default`. -/
def mkRoute (hostnames : List String) (tls : Option RouteTLSConfig) (rules : List HTTPRouteRule) :
    HTTPRoute :=
  { Namespace := "default", Spec := { Hostnames := hostnames, TLS := tls, Rules := rules } }

/-- A rule with the prefixes `/a` and `/b` that forwards to `svc:80`. -/
def ruleAB : HTTPRouteRule :=
  { Matches := [prefixMatch "/a", prefixMatch "/b"], ForwardTo := [forwardTo "svc" 80] }

/-- A rule whose second forwarding target, `missing:80`, is not in the snapshot. -/
def ruleUnresolved : HTTPRouteRule :=
  { Matches := [prefixMatch "/c"], ForwardTo := [forwardTo "other" 8080, forwardTo "missing" 80] }

/-- A rule whose second forwarding target has no service name. -/
def ruleNameless : HTTPRouteRule :=
  { Matches := [prefixMatch "/d"],
    ForwardTo := [forwardTo "svc" 80, { ServiceName := none, Port := 80 }, forwardTo "other" 8080] }

/-- A rule with a regular expression match between two prefix matches, the second of them empty. -/
def ruleRegex : HTTPRouteRule :=
  { Matches := [prefixMatch "/e", { Path := { Type_ := "RegularExpression", Value := "/f.*" } },
      prefixMatch ""],
    ForwardTo := [forwardTo "svc" 80] }

/-- A route without hostnames whose second rule, of three, cannot resolve a target. -/
def routeThree : HTTPRoute := mkRoute [] none [ruleAB, ruleUnresolved, ruleRegex]

/-- A route without hostnames that sends `/` to `svc:80`. -/
def routeToSvc : HTTPRoute :=
  mkRoute [] none [{ Matches := [prefixMatch "/"], ForwardTo := [forwardTo "svc" 80] }]

/-- A route without hostnames that sends `/` to `other:8080`. -/
def routeToOther : HTTPRoute :=
  mkRoute [] none [{ Matches := [prefixMatch "/"], ForwardTo := [forwardTo "other" 8080] }]

/-- A route for the host `a.example.com` that sends `/` to `other:8080` and logs two entries. -/
def routeOnA : HTTPRoute :=
  mkRoute ["a.example.com"] (some { CertificateRef := "cert" })
    [{ Matches := [prefixMatch "/"],
       ForwardTo := [forwardTo "other" 8080, { ServiceName := none, Port := 1 }] }]

/-! ## Properties of `routes` -/

theorem foldl_append_singleton {α β : Type} (f : α → β) (xs : List α) (acc : List β) :
    xs.foldl (fun acc x => acc ++ [f x]) acc = acc ++ xs.map f := by
  induction xs generalizing acc with
  | nil => simp
  | cons x xs ih => simp [ih]

theorem routes_eq_map (pathPrefixes : List String) (services : List Service) :
    routes pathPrefixes services =
      pathPrefixes.map (fun pfx =>
        { PathMatchCondition := some { Prefix := pfx },
          Clusters := services.map (fun s => { Upstream := s, Protocol := s.Protocol }) }) := by
  unfold routes
  simp only [foldl_append_singleton, List.nil_append]

/-- C1: for every list of path prefixes and every list of services, `routes`
returns one route per prefix, in input order, the route of a prefix carrying the
prefix match condition of that prefix, and every route carries the same cluster
list: one cluster per service, in input order, with that service as upstream
and the protocol of that service. So there are as many routes as prefixes, each
with as many clusters as there are services; the prefixes `/a` and `/b` with the
one service `svc:80` give two routes with one cluster for `svc:80` each. -/
theorem routes_spec (pathPrefixes : List String) (services : List Service) :
    routes pathPrefixes services =
      pathPrefixes.map (fun pfx =>
        { PathMatchCondition := some { Prefix := pfx },
          Clusters := services.map (fun s => { Upstream := s, Protocol := s.Protocol }) }) ∧
    (routes pathPrefixes services).length = pathPrefixes.length ∧
    (∀ r ∈ routes pathPrefixes services, r.Clusters.length = services.length) ∧
    routes ["/a", "/b"] [svc80] =
      [{ PathMatchCondition := some { Prefix := "/a" },
         Clusters := [{ Upstream := svc80, Protocol := svc80.Protocol }] },
       { PathMatchCondition := some { Prefix := "/b" },
         Clusters := [{ Upstream := svc80, Protocol := svc80.Protocol }] }] := by
  refine ⟨routes_eq_map _ _, by simp [routes_eq_map], ?_, by rw [routes_eq_map]; rfl⟩
  intro r hr
  rw [routes_eq_map] at hr
  simp only [List.mem_map] at hr
  obtain ⟨_, _, rfl⟩ := hr
  simp

/-! ## The loops of `computeHTTPRoute` -/

theorem matchLoop_eq (p : ServiceAPIsProcessor) (ms : List HTTPRouteMatch) (acc : List String) :
    matchLoop p ms acc =
      ({ p with logged := p.logged ++ matchLog ms },
        acc ++ (ms.filter isPrefixMatch).map (fun m => stringOrDefault m.Path.Value "/")) := by
  induction ms generalizing p acc with
  | nil => simp [matchLoop, matchLog]
  | cons m ms ih =>
    unfold matchLoop
    by_cases h : m.Path.Type_ = PathMatchPrefix
    · simp [h, ih, isPrefixMatch, matchLog]
    · simp [h, ih, isPrefixMatch, matchLog, ServiceAPIsProcessor.Error, entryMatch]

theorem EnsureService_error_iff (d : DAG) (meta : NamespacedName) (port : Int)
    (cache : KubernetesCache) (e : String) :
    d.EnsureService meta port cache = .error e ↔ cache.LookupService meta port = .error e := by
  unfold DAG.EnsureService
  cases h : cache.LookupService meta port with
  | error e' => simp
  | ok svc =>
    cases h2 : d.GetService meta port <;> simp

theorem EnsureService_ok (d : DAG) (meta : NamespacedName) (port : Int)
    (cache : KubernetesCache) (s : Service) (d' : DAG)
    (h : d.EnsureService meta port cache = .ok (s, d')) :
    (∃ svc, cache.LookupService meta port = .ok svc) ∧ d'.virtualhosts = d.virtualhosts := by
  unfold DAG.EnsureService at h
  cases h1 : cache.LookupService meta port with
  | error e' => simp [h1] at h
  | ok svc =>
    refine ⟨⟨svc, rfl⟩, ?_⟩
    cases h2 : d.GetService meta port with
    | none =>
      simp [h1, h2] at h
      rw [← h.2]
    | some x =>
      simp [h1, h2] at h
      rw [← h.2]

theorem forwardLoop_props (p : ServiceAPIsProcessor) (ns : String)
    (fs : List HTTPRouteForwardTo) (acc : List Service) :
    (forwardLoop p ns fs acc).1.source = p.source ∧
    (forwardLoop p ns fs acc).1.dag.virtualhosts = p.dag.virtualhosts ∧
    (forwardLoop p ns fs acc).1.logged = p.logged ++ forwardLog p.source ns fs ∧
    ((forwardLoop p ns fs acc).2 = none ↔ reachesUnresolved p.source ns fs = true) := by
  induction fs generalizing p acc with
  | nil => simp [forwardLoop, forwardLog, reachesUnresolved]
  | cons f fs ih =>
    unfold forwardLoop forwardLog reachesUnresolved
    cases hn : f.ServiceName with
    | none => simp [ServiceAPIsProcessor.Error, entryServiceName]
    | some name =>
      simp only
      cases he : p.dag.EnsureService { Name := name, Namespace := ns } f.Port p.source with
      | error e =>
        rw [(EnsureService_error_iff _ _ _ _ _).1 he]
        simp [ServiceAPIsProcessor.Errorf, entryService]
      | ok r =>
        obtain ⟨s, d'⟩ := r
        obtain ⟨⟨svc, hsvc⟩, hv⟩ := EnsureService_ok _ _ _ _ _ _ he
        rw [hsvc]
        simp only
        have := ih { p with dag := d' } (acc ++ [s])
        simpa [hv] using this

/-! ## Virtual hosts of the graph -/

/-- Adding routes to a virtual host (the inner loop of lines 103-105) keeps its name. -/
theorem addRoutes_Name (rs : List Route) (v : VirtualHost) :
    (rs.foldl (fun v route => v.addRoute route) v).Name = v.Name := by
  induction rs generalizing v with
  | nil => rfl
  | cons r rs ih => rw [List.foldl_cons, ih]; rfl

theorem find?_map_name (l : List VirtualHost) (g : VirtualHost → VirtualHost)
    (hg : ∀ v, (g v).Name = v.Name) (x : String) :
    (l.map g).find? (fun v => decide (v.Name = x)) =
      (l.find? (fun v => decide (v.Name = x))).map g := by
  induction l with
  | nil => rfl
  | cons v l ih =>
    simp only [List.map_cons, List.find?_cons, hg]
    by_cases h : v.Name = x
    · simp [h]
    · simp [h, ih]

theorem GetVirtualHost_Name (d : DAG) (x : String) (v : VirtualHost)
    (h : d.GetVirtualHost x = some v) : v.Name = x := by
  unfold DAG.GetVirtualHost at h
  have := List.find?_some h
  simpa using this

theorem GetVirtualHost_update (d : DAG) (h : String) (f : VirtualHost → VirtualHost)
    (hf : ∀ v, (f v).Name = v.Name) (x : String) :
    (d.updateVirtualHost h f).GetVirtualHost x =
      if x = h then (d.GetVirtualHost x).map f else d.GetVirtualHost x := by
  unfold DAG.updateVirtualHost DAG.GetVirtualHost
  simp only
  rw [find?_map_name _ _ (by intro v; by_cases hv : v.Name = h <;> simp [hv, hf])]
  cases hfind : d.virtualhosts.find? (fun v => decide (v.Name = x)) with
  | none => simp
  | some v =>
    have hn : v.Name = x := by simpa using List.find?_some hfind
    by_cases hx : x = h
    · simp [hx, hn ▸ hx]
    · simp [hx, hn]

theorem GetVirtualHost_ensure (d : DAG) (h x : String) :
    (d.EnsureVirtualHost h).GetVirtualHost x =
      if x = h then some ((d.GetVirtualHost h).getD { Name := h, routes := [] })
      else d.GetVirtualHost x := by
  unfold DAG.EnsureVirtualHost
  cases hg : d.GetVirtualHost h with
  | some v =>
    by_cases hx : x = h
    · simp [hx, hg]
    · simp [hx]
  | none =>
    simp only [DAG.GetVirtualHost, List.find?_append]
    by_cases hx : x = h
    · subst hx
      unfold DAG.GetVirtualHost at hg
      simp [hg]
    · have : ¬ h = x := fun e => hx e.symm
      simp [hx, this]

/-- One round of the loop over the hosts, seen from a hostname. -/
theorem GetVirtualHost_hostStep (d : DAG) (h : String) (rs : List Route) (x : String) :
    ((d.EnsureVirtualHost h).updateVirtualHost h
        (fun v => rs.foldl (fun v route => v.addRoute route) v)).GetVirtualHost x =
      if x = h then
        some (rs.foldl (fun v route => v.addRoute route)
          ((d.GetVirtualHost h).getD { Name := h, routes := [] }))
      else d.GetVirtualHost x := by
  rw [GetVirtualHost_update _ _ _ (addRoutes_Name rs), GetVirtualHost_ensure]
  by_cases hx : x = h <;> simp [hx]

theorem hostStep_services (d : DAG) (h : String) (f : VirtualHost → VirtualHost) :
    ((d.EnsureVirtualHost h).updateVirtualHost h f).services = d.services := by
  unfold DAG.EnsureVirtualHost DAG.updateVirtualHost
  cases d.GetVirtualHost h <;> rfl

theorem hostsLoop_services (d : DAG) (hosts : List String) (rs : List Route) :
    (hostsLoop d hosts rs).services = d.services := by
  unfold hostsLoop
  induction hosts generalizing d with
  | nil => rfl
  | cons h hosts ih => simp only [List.foldl_cons]; rw [ih, hostStep_services]

theorem hostsLoop_cons (d : DAG) (h : String) (hosts : List String) (rs : List Route) :
    hostsLoop d (h :: hosts) rs =
      hostsLoop ((d.EnsureVirtualHost h).updateVirtualHost h
        (fun v => rs.foldl (fun v route => v.addRoute route) v)) hosts rs := rfl

/-- The loop over the hosts leaves the virtual hosts of all other hostnames as they are. -/
theorem hostsLoop_other (d : DAG) (hosts : List String) (rs : List Route) (x : String)
    (hx : x ∉ hosts) : (hostsLoop d hosts rs).GetVirtualHost x = d.GetVirtualHost x := by
  induction hosts generalizing d with
  | nil => rfl
  | cons h hosts ih =>
    rw [hostsLoop_cons, ih _ (fun hm => hx (List.mem_cons_of_mem _ hm)), GetVirtualHost_hostStep]
    have : x ≠ h := fun e => hx (e ▸ List.mem_cons_self _ _)
    simp [this]

/-- The loop over the hosts never removes a virtual host. -/
theorem hostsLoop_isSome (d : DAG) (hosts : List String) (rs : List Route) (x : String)
    (hx : (d.GetVirtualHost x).isSome) : ((hostsLoop d hosts rs).GetVirtualHost x).isSome := by
  induction hosts generalizing d with
  | nil => exact hx
  | cons h hosts ih =>
    rw [hostsLoop_cons]
    apply ih
    rw [GetVirtualHost_hostStep]
    by_cases hxh : x = h <;> simp [hxh, hx]

/-- The loop over the hosts leaves a virtual host under each of the hosts. -/
theorem hostsLoop_mem_isSome (d : DAG) (hosts : List String) (rs : List Route) (x : String)
    (hx : x ∈ hosts) : ((hostsLoop d hosts rs).GetVirtualHost x).isSome := by
  induction hosts generalizing d with
  | nil => simp at hx
  | cons h hosts ih =>
    rw [hostsLoop_cons]
    by_cases hxh : x = h
    · apply hostsLoop_isSome
      rw [GetVirtualHost_hostStep]
      simp [hxh]
    · exact ih _ (by simpa [hxh] using hx)

/-! ## One rule, and the loop over the rules -/

theorem ruleRoutes_props (p : ServiceAPIsProcessor) (ns : String) (rule : HTTPRouteRule) :
    (ruleRoutes p ns rule).1.source = p.source ∧
    (ruleRoutes p ns rule).1.dag.virtualhosts = p.dag.virtualhosts ∧
    (ruleRoutes p ns rule).1.logged =
      p.logged ++ matchLog rule.Matches ++ forwardLog p.source ns rule.ForwardTo ∧
    ((ruleRoutes p ns rule).2 = none ↔ reachesUnresolved p.source ns rule.ForwardTo = true) := by
  unfold ruleRoutes
  rw [matchLoop_eq]
  simp only
  have h := forwardLoop_props { p with logged := p.logged ++ matchLog rule.Matches } ns
    rule.ForwardTo []
  revert h
  cases forwardLoop { p with logged := p.logged ++ matchLog rule.Matches } ns rule.ForwardTo [] with
  | mk p2 res =>
    cases res with
    | none => simp
    | some services => simp

theorem rulesLoop_cons_none (hosts : List String) (ns : String) (p p2 : ServiceAPIsProcessor)
    (rule : HTTPRouteRule) (rest : List HTTPRouteRule)
    (h : ruleRoutes p ns rule = (p2, none)) :
    rulesLoop hosts ns p (rule :: rest) = p2 := by
  rw [rulesLoop, h]

theorem rulesLoop_cons_some (hosts : List String) (ns : String) (p p2 : ServiceAPIsProcessor)
    (rule : HTTPRouteRule) (rest : List HTTPRouteRule) (rs : List Route)
    (h : ruleRoutes p ns rule = (p2, some rs)) :
    rulesLoop hosts ns p (rule :: rest) =
      rulesLoop hosts ns { p2 with dag := hostsLoop p2.dag hosts rs } rest := by
  rw [rulesLoop, h]

/-- A rule that comes to a target it cannot resolve ends the loop over the
rules, with the virtual hosts as they were before the rule. -/
theorem rulesLoop_abort (hosts : List String) (ns : String) (p : ServiceAPIsProcessor)
    (rule : HTTPRouteRule) (rest : List HTTPRouteRule)
    (h : reachesUnresolved p.source ns rule.ForwardTo = true) :
    (rulesLoop hosts ns p (rule :: rest)).dag.virtualhosts = p.dag.virtualhosts ∧
    (rulesLoop hosts ns p (rule :: rest)).source = p.source ∧
    (rulesLoop hosts ns p (rule :: rest)).logged =
      p.logged ++ matchLog rule.Matches ++ forwardLog p.source ns rule.ForwardTo := by
  obtain ⟨h1, h2, h3, h4⟩ := ruleRoutes_props p ns rule
  cases hr : ruleRoutes p ns rule with
  | mk p2 res =>
    rw [hr] at h1 h2 h3 h4
    have hres : res = none := h4.2 h
    subst hres
    rw [rulesLoop_cons_none hosts ns p p2 rule rest hr]
    exact ⟨h2, h1, h3⟩

/-- A rule that does not come to a target it cannot resolve has its routes added
under the hosts, and the loop goes on with the next rule. -/
theorem rulesLoop_continue (hosts : List String) (ns : String) (p : ServiceAPIsProcessor)
    (rule : HTTPRouteRule) (rest : List HTTPRouteRule)
    (h : reachesUnresolved p.source ns rule.ForwardTo = false) :
    ∃ p2 rs, ruleRoutes p ns rule = (p2, some rs) ∧
      rulesLoop hosts ns p (rule :: rest) =
        rulesLoop hosts ns { p2 with dag := hostsLoop p2.dag hosts rs } rest := by
  obtain ⟨-, -, -, h4⟩ := ruleRoutes_props p ns rule
  cases hr : ruleRoutes p ns rule with
  | mk p2 res =>
    rw [hr] at h4
    cases res with
    | none => simp [h] at h4
    | some rs => exact ⟨p2, rs, rfl, rulesLoop_cons_some hosts ns p p2 rule rest rs hr⟩

theorem rulesLoop_props (hosts : List String) (ns : String) (p : ServiceAPIsProcessor)
    (rules : List HTTPRouteRule) :
    (rulesLoop hosts ns p rules).source = p.source ∧
    (rulesLoop hosts ns p rules).logged = p.logged ++ rulesLog p.source ns rules := by
  induction rules generalizing p with
  | nil => simp [rulesLoop, rulesLog]
  | cons rule rest ih =>
    obtain ⟨h1, h2, h3, h4⟩ := ruleRoutes_props p ns rule
    cases hu : reachesUnresolved p.source ns rule.ForwardTo with
    | true =>
      obtain ⟨-, hs, hl⟩ := rulesLoop_abort hosts ns p rule rest hu
      simp [hs, hl, rulesLog, hu]
    | false =>
      obtain ⟨p2, rs, hr, hstep⟩ := rulesLoop_continue hosts ns p rule rest hu
      rw [hr] at h1 h3
      rw [hstep]
      obtain ⟨ihs, ihl⟩ := ih { p2 with dag := hostsLoop p2.dag hosts rs }
      simp only at ihs ihl h1 h3
      rw [ihs, ihl, h1, h3]
      simp [rulesLog, hu]

/-- Rules that do not come to a target they cannot resolve are gone through one
after the other, and the loop goes on with the rules after them. -/
theorem rulesLoop_append (hosts : List String) (ns : String) (p : ServiceAPIsProcessor)
    (pre rest : List HTTPRouteRule)
    (hpre : ∀ r ∈ pre, reachesUnresolved p.source ns r.ForwardTo = false) :
    rulesLoop hosts ns p (pre ++ rest) = rulesLoop hosts ns (rulesLoop hosts ns p pre) rest := by
  induction pre generalizing p with
  | nil => simp [rulesLoop]
  | cons rule pre ih =>
    obtain ⟨p2, rs, hr, hstep⟩ :=
      rulesLoop_continue hosts ns p rule (pre ++ rest) (hpre rule (List.mem_cons_self _ _))
    obtain ⟨p2', rs', hr', hstep'⟩ :=
      rulesLoop_continue hosts ns p rule pre (hpre rule (List.mem_cons_self _ _))
    rw [hr] at hr'
    obtain ⟨rfl, hrs⟩ := Prod.mk.inj hr'
    obtain rfl := Option.some.inj hrs
    rw [List.cons_append, hstep, hstep']
    apply ih
    intro r hrmem
    have hsrc : p2.source = p.source := by
      have := (ruleRoutes_props p ns rule).1
      rw [hr] at this
      exact this
    simpa [hsrc] using hpre r (List.mem_cons_of_mem _ hrmem)

theorem computeHTTPRoute_props (p : ServiceAPIsProcessor) (route : HTTPRoute) :
    (computeHTTPRoute p route).source = p.source ∧
    (computeHTTPRoute p route).logged = p.logged ++ routeLog p.source route := by
  unfold computeHTTPRoute routeLog
  by_cases h : route.Spec.TLS ≠ none
  · obtain ⟨h1, h2⟩ := rulesLoop_props (hostsOf route) route.Namespace (p.Error msgTLS)
      route.Spec.Rules
    simp only [if_pos h]
    rw [h1, h2]
    simp [ServiceAPIsProcessor.Error, entryTLS]
  · obtain ⟨h1, h2⟩ := rulesLoop_props (hostsOf route) route.Namespace p route.Spec.Rules
    simp only [if_neg h]
    rw [h1, h2]
    simp only [List.nil_append, and_self]

/-! ## The log does not steer the processor -/

theorem forwardLoop_logged (p : ServiceAPIsProcessor) (l : List LogEntry) (ns : String)
    (fs : List HTTPRouteForwardTo) (acc : List Service) :
    (forwardLoop { p with logged := l } ns fs acc).1.dag = (forwardLoop p ns fs acc).1.dag ∧
    (forwardLoop { p with logged := l } ns fs acc).2 = (forwardLoop p ns fs acc).2 := by
  induction fs generalizing p acc with
  | nil => simp [forwardLoop]
  | cons f fs ih =>
    unfold forwardLoop
    cases hn : f.ServiceName with
    | none => simp [ServiceAPIsProcessor.Error]
    | some name =>
      simp only
      cases he : p.dag.EnsureService { Name := name, Namespace := ns } f.Port p.source with
      | error e => simp [ServiceAPIsProcessor.Errorf]
      | ok r =>
        obtain ⟨s, d'⟩ := r
        simp only
        exact ih { p with dag := d' } (acc ++ [s])

theorem ruleRoutes_logged (p : ServiceAPIsProcessor) (l : List LogEntry) (ns : String)
    (rule : HTTPRouteRule) :
    (ruleRoutes { p with logged := l } ns rule).1.dag = (ruleRoutes p ns rule).1.dag ∧
    (ruleRoutes { p with logged := l } ns rule).2 = (ruleRoutes p ns rule).2 := by
  unfold ruleRoutes
  simp only [matchLoop_eq]
  have h := forwardLoop_logged { p with logged := p.logged ++ matchLog rule.Matches }
    (l ++ matchLog rule.Matches) ns rule.ForwardTo []
  simp only at h
  revert h
  cases forwardLoop { p with logged := p.logged ++ matchLog rule.Matches } ns rule.ForwardTo [] with
  | mk p2 res =>
    cases forwardLoop { p with logged := l ++ matchLog rule.Matches } ns rule.ForwardTo [] with
    | mk p2' res' =>
      intro h
      obtain ⟨h1, h2⟩ := h
      simp only at h1 h2
      subst h2
      cases res' <;> simp [h1]

theorem rulesLoop_logged (hosts : List String) (ns : String) (p : ServiceAPIsProcessor)
    (l : List LogEntry) (rules : List HTTPRouteRule) :
    (rulesLoop hosts ns { p with logged := l } rules).dag = (rulesLoop hosts ns p rules).dag := by
  induction rules generalizing p l with
  | nil => simp [rulesLoop]
  | cons rule rest ih =>
    obtain ⟨h1, h2⟩ := ruleRoutes_logged p l ns rule
    cases hr : ruleRoutes p ns rule with
    | mk p2 res =>
      cases hr' : ruleRoutes { p with logged := l } ns rule with
      | mk p2' res' =>
        rw [hr, hr'] at h1 h2
        simp only at h1 h2
        subst h2
        cases res' with
        | none =>
          rw [rulesLoop_cons_none hosts ns _ p2' rule rest hr',
            rulesLoop_cons_none hosts ns _ p2 rule rest hr, h1]
        | some rs =>
          rw [rulesLoop_cons_some hosts ns _ p2' rule rest rs hr',
            rulesLoop_cons_some hosts ns _ p2 rule rest rs hr]
          have hsrc : p2'.source = p2.source := by
            have a := (ruleRoutes_props p ns rule).1
            have b := (ruleRoutes_props { p with logged := l } ns rule).1
            rw [hr] at a
            rw [hr'] at b
            simp only at a b
            rw [a, b]
          have := ih { p2 with dag := hostsLoop p2.dag hosts rs } p2'.logged
          simp only at this
          rw [← this, h1, hsrc]

/-! ## What is logged -/

theorem mem_matchLog (ms : List HTTPRouteMatch) (e : LogEntry) (h : e ∈ matchLog ms) :
    e = entryMatch := by
  unfold matchLog at h
  simp only [List.mem_map] at h
  obtain ⟨_, _, rfl⟩ := h
  rfl

theorem forwardLog_resolved (source : KubernetesCache) (ns : String)
    (fs : List HTTPRouteForwardTo) (h : reachesUnresolved source ns fs = false) :
    ∀ e ∈ forwardLog source ns fs, e = entryServiceName := by
  induction fs with
  | nil => simp [forwardLog]
  | cons f fs ih =>
    unfold forwardLog
    unfold reachesUnresolved at h
    cases hn : f.ServiceName with
    | none => simp
    | some name =>
      rw [hn] at h
      simp only at h ⊢
      cases hl : source.LookupService { Name := name, Namespace := ns } f.Port with
      | error e => rw [hl] at h; simp at h
      | ok s => rw [hl] at h; simp only at h ⊢; exact ih h

/-- When the loop over the targets comes to a target it cannot resolve, that
target is named, the targets before it are named and resolved, and the one entry
logged names the target and the namespace. -/
theorem forwardLog_unresolved (source : KubernetesCache) (ns : String)
    (fs : List HTTPRouteForwardTo) (h : reachesUnresolved source ns fs = true) :
    ∃ fpre f fpost name err, fs = fpre ++ f :: fpost ∧ f.ServiceName = some name ∧
      source.LookupService { Name := name, Namespace := ns } f.Port = .error err ∧
      (∀ g ∈ fpre, ∃ n s, g.ServiceName = some n ∧
        source.LookupService { Name := n, Namespace := ns } g.Port = .ok s) ∧
      forwardLog source ns fs = [entryService name ns] := by
  induction fs with
  | nil => simp [reachesUnresolved] at h
  | cons f fs ih =>
    unfold reachesUnresolved at h
    cases hn : f.ServiceName with
    | none => rw [hn] at h; simp at h
    | some name =>
      rw [hn] at h
      simp only at h
      cases hl : source.LookupService { Name := name, Namespace := ns } f.Port with
      | error e =>
        refine ⟨[], f, fs, name, e, rfl, hn, hl, by simp, ?_⟩
        unfold forwardLog
        simp [hn, hl]
      | ok s =>
        rw [hl] at h
        simp only at h
        obtain ⟨fpre, f', fpost, name', err, h1, h2, h3, h4, h5⟩ := ih h
        refine ⟨f :: fpre, f', fpost, name', err, by simp [h1], h2, h3, ?_, ?_⟩
        · intro g hg
          rcases List.mem_cons.1 hg with rfl | hg
          · exact ⟨name, s, hn, hl⟩
          · exact h4 g hg
        · unfold forwardLog
          simp [hn, hl, h5]

theorem rulesLog_resolved (source : KubernetesCache) (ns : String) (rules : List HTTPRouteRule)
    (h : ∀ r ∈ rules, reachesUnresolved source ns r.ForwardTo = false) :
    ∀ e ∈ rulesLog source ns rules, e = entryMatch ∨ e = entryServiceName := by
  induction rules with
  | nil => simp [rulesLog]
  | cons rule rest ih =>
    intro e he
    unfold rulesLog at he
    rw [h rule (List.mem_cons_self _ _)] at he
    simp only [List.mem_append, Bool.false_eq_true, if_false] at he
    rcases he with (he | he) | he
    · exact Or.inl (mem_matchLog _ _ he)
    · exact Or.inr (forwardLog_resolved _ _ _ (h rule (List.mem_cons_self _ _)) e he)
    · exact ih (fun r hr => h r (List.mem_cons_of_mem _ hr)) e he

theorem mem_rulesLog (source : KubernetesCache) (ns : String) (rules : List HTTPRouteRule) :
    ∀ e ∈ rulesLog source ns rules,
      e = entryMatch ∨ e = entryServiceName ∨ ∃ name, e = entryService name ns := by
  induction rules with
  | nil => simp [rulesLog]
  | cons rule rest ih =>
    intro e he
    unfold rulesLog at he
    simp only [List.mem_append] at he
    rcases he with (he | he) | he
    · exact Or.inl (mem_matchLog _ _ he)
    · cases hu : reachesUnresolved source ns rule.ForwardTo with
      | false => exact Or.inr (Or.inl (forwardLog_resolved _ _ _ hu e he))
      | true =>
        obtain ⟨_, _, _, name, _, _, _, _, _, h5⟩ := forwardLog_unresolved _ _ _ hu
        rw [h5] at he
        exact Or.inr (Or.inr ⟨name, by simpa using he⟩)
    · cases hu : reachesUnresolved source ns rule.ForwardTo with
      | false => rw [hu] at he; exact ih e (by simpa using he)
      | true => rw [hu] at he; simp at he

/-! ## The claims about one HTTPRoute -/

/-- C4: for every rule, the path prefixes the loop over its matches collects
are the values of the matches of type `PathMatchPrefix`, in order, an empty
value replaced by `/`; every other match contributes no prefix and so no route
(a rule has as many routes as prefix matches), causes exactly one NOT
IMPLEMENTED entry in the log (there are as many such entries as there are other
matches, and nothing else is logged), and does not stop the matches after it
from being processed: the matches before and after it give what they give
without it. -/
theorem matchLoop_spec (p : ServiceAPIsProcessor) (ms : List HTTPRouteMatch) :
    (matchLoop p ms []).2 =
      (ms.filter (fun m => decide (m.Path.Type_ = PathMatchPrefix))).map
        (fun m => if m.Path.Value = "" then "/" else m.Path.Value) ∧
    (matchLoop p ms []).1 =
      { p with logged := (p.logged ++
          List.replicate (ms.countP (fun m => decide (m.Path.Type_ ≠ PathMatchPrefix)))
            entryMatch) } ∧
    (∀ services, (routes (matchLoop p ms []).2 services).length =
      ms.countP (fun m => decide (m.Path.Type_ = PathMatchPrefix))) ∧
    (∀ ms1 m ms2, ms = ms1 ++ m :: ms2 → m.Path.Type_ ≠ PathMatchPrefix →
      (matchLoop p ms []).2 = (matchLoop p ms1 []).2 ++ (matchLoop p ms2 []).2 ∧
      (matchLoop p ms []).1.logged =
        (matchLoop p ms1 []).1.logged ++ entryMatch ::
          (matchLoop { p with logged := [] } ms2 []).1.logged) := by
  have hlog : ∀ l : List HTTPRouteMatch, matchLog l =
      List.replicate (l.countP (fun m => decide (m.Path.Type_ ≠ PathMatchPrefix)))
        entryMatch := by
    intro l
    have hf : (fun m : HTTPRouteMatch => !isPrefixMatch m) =
        (fun m => decide (m.Path.Type_ ≠ PathMatchPrefix)) := by
      funext m; simp [isPrefixMatch]
    unfold matchLog
    rw [List.map_const', List.countP_eq_length_filter, hf]
  have hp : isPrefixMatch = fun m => decide (m.Path.Type_ = PathMatchPrefix) := rfl
  refine ⟨?_, ?_, ?_, ?_⟩
  · rw [matchLoop_eq]
    simp [isPrefixMatch, stringOrDefault]
    rfl
  · rw [matchLoop_eq, hlog]
  · intro services
    rw [matchLoop_eq, routes_eq_map]
    simp [List.countP_eq_length_filter, hp]
  · intro ms1 m ms2 hms hm
    subst hms
    simp only [matchLoop_eq, List.nil_append, List.filter_append, List.map_append,
      List.filter_cons]
    unfold matchLog
    simp [isPrefixMatch, hm, entryMatch, List.filter_cons]

/-- C4 at the rule `ruleRegex`: the regular expression match between the two
prefix matches logs one entry and the prefixes on both sides of it are collected. -/
theorem matchLoop_spec_witness :
    (matchLoop proc0 ruleRegex.Matches []).2 = ["/e", "/"] ∧
    (matchLoop proc0 ruleRegex.Matches []).1.logged = [entryMatch] := by
  have h := matchLoop_spec proc0 ruleRegex.Matches
  exact ⟨by rw [h.1]; decide, by rw [h.2.1]; decide⟩

/-- C7: for every HTTPRoute with a TLS configuration, `computeHTTPRoute` logs
the NOT IMPLEMENTED entry for it first and exactly once, and that entry is the
only effect of the configuration: the entries logged after it, and the graph
(virtual hosts, routes, clusters), are those for the same route without TLS. -/
theorem computeHTTPRoute_TLS (p : ServiceAPIsProcessor) (route : HTTPRoute)
    (h : route.Spec.TLS ≠ none) :
    ∃ rest : List LogEntry,
      (computeHTTPRoute p route.withoutTLS).logged = p.logged ++ rest ∧
      (computeHTTPRoute p route).logged = p.logged ++ entryTLS :: rest ∧
      entryTLS ∉ rest ∧
      (computeHTTPRoute p route).dag = (computeHTTPRoute p route.withoutTLS).dag ∧
      (computeHTTPRoute p route).source = (computeHTTPRoute p route.withoutTLS).source := by
  refine ⟨rulesLog p.source route.Namespace route.Spec.Rules, ?_, ?_, ?_, ?_, ?_⟩
  · rw [(computeHTTPRoute_props _ _).2]
    simp [routeLog, HTTPRoute.withoutTLS]
  · rw [(computeHTTPRoute_props _ _).2]
    simp [routeLog, h]
  · intro hmem
    rcases mem_rulesLog _ _ _ _ hmem with h1 | h1 | ⟨name, h1⟩
    · exact absurd h1 (by decide)
    · exact absurd h1 (by decide)
    · have hf : entryTLS.format = fmtService := congrArg LogEntry.format h1
      exact absurd hf (by decide)
  · unfold computeHTTPRoute
    simp only [if_pos h, HTTPRoute.withoutTLS, ne_eq, not_true_eq_false, if_false]
    exact rulesLoop_logged _ _ p _ _
  · rw [(computeHTTPRoute_props _ _).1, (computeHTTPRoute_props _ _).1]

/-- C7 at a route with two hostnames, a certificate reference and the rule `ruleRegex`. -/
theorem computeHTTPRoute_TLS_witness :
    ∃ rest : List LogEntry,
      (computeHTTPRoute proc0
        (mkRoute ["a.example.com", "b.example.com"] (some { CertificateRef := "cert" })
          [ruleRegex]).withoutTLS).logged = proc0.logged ++ rest ∧
      (computeHTTPRoute proc0
        (mkRoute ["a.example.com", "b.example.com"] (some { CertificateRef := "cert" })
          [ruleRegex])).logged = proc0.logged ++ entryTLS :: rest ∧
      entryTLS ∉ rest ∧
      (computeHTTPRoute proc0
        (mkRoute ["a.example.com", "b.example.com"] (some { CertificateRef := "cert" })
          [ruleRegex])).dag =
      (computeHTTPRoute proc0
        (mkRoute ["a.example.com", "b.example.com"] (some { CertificateRef := "cert" })
          [ruleRegex]).withoutTLS).dag ∧
      (computeHTTPRoute proc0
        (mkRoute ["a.example.com", "b.example.com"] (some { CertificateRef := "cert" })
          [ruleRegex])).source =
      (computeHTTPRoute proc0
        (mkRoute ["a.example.com", "b.example.com"] (some { CertificateRef := "cert" })
          [ruleRegex]).withoutTLS).source :=
  computeHTTPRoute_TLS proc0
    (mkRoute ["a.example.com", "b.example.com"] (some { CertificateRef := "cert" }) [ruleRegex])
    (by decide)

theorem reachesUnresolved_nameless (source : KubernetesCache) (ns : String)
    (fpre : List HTTPRouteForwardTo) (f : HTTPRouteForwardTo) (fpost : List HTTPRouteForwardTo)
    (hf : f.ServiceName = none)
    (hpre : ∀ g ∈ fpre, ∃ n s, g.ServiceName = some n ∧
      source.LookupService { Name := n, Namespace := ns } g.Port = .ok s) :
    reachesUnresolved source ns (fpre ++ f :: fpost) = false ∧
    forwardLog source ns (fpre ++ f :: fpost) = [entryServiceName] := by
  induction fpre with
  | nil => simp [reachesUnresolved, forwardLog, hf]
  | cons g fpre ih =>
    obtain ⟨n, s, hn, hs⟩ := hpre g (List.mem_cons_self _ _)
    have := ih (fun g' hg' => hpre g' (List.mem_cons_of_mem _ hg'))
    simp only [List.cons_append]
    unfold reachesUnresolved forwardLog
    simp [hn, hs, this]

theorem forwardLoop_nameless (p : ServiceAPIsProcessor) (ns : String)
    (fpre : List HTTPRouteForwardTo) (f : HTTPRouteForwardTo) (fpost : List HTTPRouteForwardTo)
    (acc : List Service) (hf : f.ServiceName = none)
    (hpre : ∀ g ∈ fpre, ∃ n s, g.ServiceName = some n ∧
      p.source.LookupService { Name := n, Namespace := ns } g.Port = .ok s) :
    ∃ svcs, (forwardLoop p ns (fpre ++ f :: fpost) acc).2 = some (acc ++ svcs) ∧
      svcs.length = fpre.length := by
  induction fpre generalizing p acc with
  | nil => exact ⟨[], by simp [forwardLoop, hf], rfl⟩
  | cons g fpre ih =>
    obtain ⟨n, s, hn, hs⟩ := hpre g (List.mem_cons_self _ _)
    simp only [List.cons_append]
    unfold forwardLoop
    simp only [hn]
    cases he : p.dag.EnsureService { Name := n, Namespace := ns } g.Port p.source with
    | error e =>
      rw [(EnsureService_error_iff _ _ _ _ _).1 he] at hs
      simp at hs
    | ok r =>
      obtain ⟨s', d'⟩ := r
      simp only
      obtain ⟨svcs, h1, h2⟩ := ih { p with dag := d' } (acc ++ [s'])
        (fun g' hg' => hpre g' (List.mem_cons_of_mem _ hg'))
      exact ⟨s' :: svcs, by simpa using h1, by simp [h2]⟩

/-- C2, amended: for every rule whose first forwarding target without a
ServiceName has only targets before it that resolve, the rule is gone through
with exactly one `ServiceName must be specified` entry logged for it (after the
entries of its matches), every route built for the rule carries exactly one
cluster per target before the nameless one, so zero clusters when the nameless
target is the first, and the routes of the rule are still added under the hosts
before the loop over the rules goes on. -/
theorem ruleRoutes_nameless (p : ServiceAPIsProcessor) (ns : String) (rule : HTTPRouteRule)
    (fpre : List HTTPRouteForwardTo) (f : HTTPRouteForwardTo) (fpost : List HTTPRouteForwardTo)
    (hsplit : rule.ForwardTo = fpre ++ f :: fpost) (hf : f.ServiceName = none)
    (hpre : ∀ g ∈ fpre, ∃ n s, g.ServiceName = some n ∧
      p.source.LookupService { Name := n, Namespace := ns } g.Port = .ok s) :
    ∃ p2 rs, ruleRoutes p ns rule = (p2, some rs) ∧
      p2.logged = p.logged ++ matchLog rule.Matches ++ [entryServiceName] ∧
      p2.logged.count entryServiceName = p.logged.count entryServiceName + 1 ∧
      (∀ r ∈ rs, r.Clusters.length = fpre.length) ∧
      (fpre = [] → ∀ r ∈ rs, r.Clusters = []) ∧
      ∀ hosts rest, rulesLoop hosts ns p (rule :: rest) =
        rulesLoop hosts ns { p2 with dag := hostsLoop p2.dag hosts rs } rest := by
  obtain ⟨hu, hlog⟩ := reachesUnresolved_nameless p.source ns fpre f fpost hf hpre
  rw [← hsplit] at hu hlog
  obtain ⟨-, -, h3, -⟩ := ruleRoutes_props p ns rule
  have hlen : ∀ rs, (ruleRoutes p ns rule).2 = some rs → ∀ r ∈ rs, r.Clusters.length = fpre.length := by
    intro rs hrs r hr
    unfold ruleRoutes at hrs
    rw [matchLoop_eq] at hrs
    simp only at hrs
    obtain ⟨svcs, h1, h2⟩ := forwardLoop_nameless
      { p with logged := p.logged ++ matchLog rule.Matches } ns fpre f fpost [] hf hpre
    rw [← hsplit] at h1
    revert hrs h1
    cases forwardLoop { p with logged := p.logged ++ matchLog rule.Matches } ns rule.ForwardTo [] with
    | mk q res =>
      intro hrs h1
      simp only at h1
      subst h1
      simp only [List.nil_append, Option.some.injEq] at hrs
      subst hrs
      rw [routes_eq_map] at hr
      simp only [List.mem_map] at hr
      obtain ⟨_, _, rfl⟩ := hr
      simp [h2]
  obtain ⟨p2, rs, hr, hstep⟩ := rulesLoop_continue [] ns p rule [] hu
  rw [hr] at h3 hlen
  simp only at h3
  rw [hlog] at h3
  refine ⟨p2, rs, hr, h3, ?_, hlen rs rfl, ?_, ?_⟩
  · rw [h3, List.count_append, List.count_append]
    have : (matchLog rule.Matches).count entryServiceName = 0 := by
      rw [List.count_eq_zero]
      intro hm
      exact absurd (mem_matchLog _ _ hm) (by decide)
    simp [this]
  · intro hnil r hr'
    have := hlen rs rfl r hr'
    rw [hnil] at this
    exact List.length_eq_zero.1 this
  · intro hosts rest
    exact rulesLoop_cons_some hosts ns p p2 rule rest rs hr

/-- C2, amended, at the rule `ruleNameless`, whose nameless target comes after `svc:80`. -/
theorem ruleRoutes_nameless_witness :
    ∃ p2 rs, ruleRoutes proc0 "default" ruleNameless = (p2, some rs) ∧
      p2.logged = proc0.logged ++ matchLog ruleNameless.Matches ++ [entryServiceName] ∧
      p2.logged.count entryServiceName = proc0.logged.count entryServiceName + 1 ∧
      (∀ r ∈ rs, r.Clusters.length = [forwardTo "svc" 80].length) ∧
      ([forwardTo "svc" 80] = [] → ∀ r ∈ rs, r.Clusters = []) ∧
      ∀ hosts rest, rulesLoop hosts "default" proc0 (ruleNameless :: rest) =
        rulesLoop hosts "default" { p2 with dag := hostsLoop p2.dag hosts rs } rest :=
  ruleRoutes_nameless proc0 "default" ruleNameless [forwardTo "svc" 80]
    { ServiceName := none, Port := 80 } [forwardTo "other" 8080] rfl rfl
    (by
      intro g hg
      rw [List.mem_singleton] at hg
      subst hg
      exact ⟨"svc", svc80, rfl, rfl⟩)

/-- C2 as stated fails: the route with the one rule `ruleNameless`, computed on
the empty graph, has a forwarding target without a ServiceName, and yet the
graph holds a cluster for `svc:80` afterwards. -/
theorem nameless_counterexample :
    (∃ f ∈ ruleNameless.ForwardTo, f.ServiceName = none) ∧
    proc0.dag.clusters = [] ∧
    (computeHTTPRoute proc0 (mkRoute [] none [ruleNameless])).dag.clusters =
      [{ Upstream := svc80, Protocol := "" }] := by
  refine ⟨⟨{ ServiceName := none, Port := 80 }, by decide, rfl⟩, by decide, by decide⟩

/-- A route whose rules before rule `rk` are gone through and whose rule `rk`
comes to a target it cannot resolve: the virtual hosts are those left by the
rules before `rk`, and the log is theirs followed by the entries of the matches
of `rk` and by the entry for the unresolved target. -/
theorem computeHTTPRoute_split (p : ServiceAPIsProcessor) (route : HTTPRoute)
    (pre : List HTTPRouteRule) (rk : HTTPRouteRule) (post : List HTTPRouteRule)
    (hrules : route.Spec.Rules = pre ++ rk :: post)
    (hpre : ∀ r ∈ pre, reachesUnresolved p.source route.Namespace r.ForwardTo = false)
    (hk : reachesUnresolved p.source route.Namespace rk.ForwardTo = true) :
    (computeHTTPRoute p route).dag.virtualhosts =
      (computeHTTPRoute p (route.withRules pre)).dag.virtualhosts ∧
    (computeHTTPRoute p route).logged =
      (computeHTTPRoute p (route.withRules pre)).logged ++ matchLog rk.Matches ++
        forwardLog p.source route.Namespace rk.ForwardTo := by
  have hsrc : ∀ q : ServiceAPIsProcessor, q.source = p.source →
      (rulesLoop (hostsOf route) route.Namespace q route.Spec.Rules).dag.virtualhosts =
        (rulesLoop (hostsOf route) route.Namespace q pre).dag.virtualhosts ∧
      (rulesLoop (hostsOf route) route.Namespace q route.Spec.Rules).logged =
        (rulesLoop (hostsOf route) route.Namespace q pre).logged ++ matchLog rk.Matches ++
          forwardLog p.source route.Namespace rk.ForwardTo := by
    intro q hq
    rw [hrules, rulesLoop_append _ _ _ _ _ (by rw [hq]; exact hpre)]
    have hs : (rulesLoop (hostsOf route) route.Namespace q pre).source = p.source := by
      rw [(rulesLoop_props _ _ _ _).1, hq]
    obtain ⟨h1, -, h3⟩ := rulesLoop_abort (hostsOf route) route.Namespace
      (rulesLoop (hostsOf route) route.Namespace q pre) rk post (by rw [hs]; exact hk)
    rw [hs] at h3
    exact ⟨h1, h3⟩
  have hhosts : hostsOf (route.withRules pre) = hostsOf route := rfl
  unfold computeHTTPRoute
  rw [hhosts]
  exact hsrc _ (by by_cases h : route.Spec.TLS ≠ none <;> simp [h, ServiceAPIsProcessor.Error])

/-- C10: if `EnsureService` fails for a forwarding target in rule `rk` of an
HTTPRoute (the loop over the targets of `rk` comes to a named target for which
`EnsureService` returns an error), with the rules `pre` before it gone through
and the rules `post` after it, `computeHTTPRoute` returns at once. The virtual hosts and routes of the graph
are those obtained by processing only the rules `pre`: rule `rk` adds nothing,
the rules `post` are never processed (they log nothing either), what the rules
`pre` added remains. Exactly one `Service ... does not exist in namespace ...`
entry is logged for the route, as the last entry, after the entries of the rules
`pre` and of the matches of `rk`. In contrast, a rule whose loop over the targets
stops at a target without a ServiceName has its routes added under the hosts,
and the rules after it are processed. -/
theorem computeHTTPRoute_unresolved (p : ServiceAPIsProcessor) (route : HTTPRoute)
    (pre : List HTTPRouteRule) (rk : HTTPRouteRule) (post : List HTTPRouteRule)
    (hrules : route.Spec.Rules = pre ++ rk :: post)
    (hpre : ∀ r ∈ pre, reachesUnresolved p.source route.Namespace r.ForwardTo = false)
    (hk : reachesUnresolved p.source route.Namespace rk.ForwardTo = true) :
    (computeHTTPRoute p route).dag.virtualhosts =
      (computeHTTPRoute p (route.withRules pre)).dag.virtualhosts ∧
    (∃ f ∈ rk.ForwardTo, ∃ name err, f.ServiceName = some name ∧
      (∀ d : DAG, d.EnsureService { Name := name, Namespace := route.Namespace } f.Port
        p.source = .error err) ∧
      (computeHTTPRoute p route).logged =
        (computeHTTPRoute p (route.withRules pre)).logged ++ matchLog rk.Matches ++
          [entryService name route.Namespace]) ∧
    (∃ new, (computeHTTPRoute p route).logged = p.logged ++ new ∧
      (serviceErrors new).length = 1) ∧
    (∀ (q : ServiceAPIsProcessor) (hosts : List String) (rule : HTTPRouteRule)
      (fpre fpost : List HTTPRouteForwardTo) (f : HTTPRouteForwardTo)
      (rules : List HTTPRouteRule),
      rule.ForwardTo = fpre ++ f :: fpost → f.ServiceName = none →
      (∀ g ∈ fpre, ∃ n s, g.ServiceName = some n ∧
        q.source.LookupService { Name := n, Namespace := route.Namespace } g.Port = .ok s) →
      ∃ q2 rs, ruleRoutes q route.Namespace rule = (q2, some rs) ∧
        rulesLoop hosts route.Namespace q (rule :: rules) =
          rulesLoop hosts route.Namespace { q2 with dag := hostsLoop q2.dag hosts rs } rules) := by
  obtain ⟨hv, hl⟩ := computeHTTPRoute_split p route pre rk post hrules hpre hk
  obtain ⟨fpre, f, fpost, name, err, hsplit, hname, herr, _, hf⟩ :=
    forwardLog_unresolved _ _ _ hk
  rw [hf] at hl
  refine ⟨hv, ⟨f, by rw [hsplit]; simp, name, err, hname,
    fun d => (EnsureService_error_iff d _ _ _ _).2 herr, hl⟩, ?_, ?_⟩
  · refine ⟨routeLog p.source (route.withRules pre) ++ matchLog rk.Matches ++
      [entryService name route.Namespace], ?_, ?_⟩
    · rw [hl, (computeHTTPRoute_props _ _).2]
      simp
    · have h1 : serviceErrors (routeLog p.source (route.withRules pre)) = [] := by
        unfold serviceErrors
        rw [List.filter_eq_nil_iff]
        intro e he
        unfold routeLog at he
        rcases List.mem_append.1 he with he | he
        · by_cases ht : (route.withRules pre).Spec.TLS ≠ none
          · rw [if_pos ht] at he
            rw [List.mem_singleton.1 he]
            decide
          · rw [if_neg ht] at he
            simp at he
        · rcases rulesLog_resolved _ _ _ hpre e he with rfl | rfl <;> decide
      have h2 : serviceErrors (matchLog rk.Matches) = [] := by
        unfold serviceErrors
        rw [List.filter_eq_nil_iff]
        intro e he
        rw [mem_matchLog _ _ he]
        decide
      have h3 : serviceErrors [entryService name route.Namespace] =
          [entryService name route.Namespace] := by
        simp [serviceErrors, entryService]
      have happ : ∀ a b : List LogEntry, serviceErrors (a ++ b) =
          serviceErrors a ++ serviceErrors b := by
        intro a b; simp [serviceErrors]
      rw [happ, happ, h1, h2, h3]
      rfl
  · intro q hosts rule fpre fpost f rules hsplit hnone hres
    have hu := (reachesUnresolved_nameless q.source route.Namespace fpre f fpost hnone hres).1
    rw [← hsplit] at hu
    exact rulesLoop_continue hosts route.Namespace q rule rules hu

/-- C10 at the route `routeThree`, whose second rule cannot resolve `missing:80`
after it has resolved `other:8080`: the graph is the one left by the first rule,
and the log ends with the one entry for `missing`. -/
theorem computeHTTPRoute_unresolved_witness :
    (∀ r ∈ [ruleAB], reachesUnresolved proc0.source routeThree.Namespace r.ForwardTo = false) ∧
    reachesUnresolved proc0.source routeThree.Namespace ruleUnresolved.ForwardTo = true ∧
    (computeHTTPRoute proc0 routeThree).dag.virtualhosts =
      (computeHTTPRoute proc0 (routeThree.withRules [ruleAB])).dag.virtualhosts ∧
    (computeHTTPRoute proc0 routeThree).logged = [entryService "missing" "default"] :=
  ⟨by decide, by decide,
    (computeHTTPRoute_unresolved proc0 routeThree [ruleAB] ruleUnresolved [ruleRegex] rfl
      (by decide) (by decide)).1, by decide⟩

theorem clusters_congr (d d' : DAG) (h : d.virtualhosts = d'.virtualhosts) :
    d.clusters = d'.clusters := by
  unfold DAG.clusters; rw [h]

/-- C3, amended: for every HTTPRoute, if `EnsureService` returns an error for a
forwarding target of rule `rk`, whatever the rules `pre` gone through before it
(the loop over the targets of `rk` comes to a named target for which
`EnsureService` returns an error on every graph), an entry that
names the unresolved service and the namespace of the route is logged last, and
the rest of the HTTPRoute is abandoned: the clusters of the graph are those left
by the rules `pre`, so rule `rk` and the rules after it add no cluster, and no
cluster at all is added when `rk` is the first rule. -/
theorem computeHTTPRoute_abandons (p : ServiceAPIsProcessor) (route : HTTPRoute)
    (pre : List HTTPRouteRule) (rk : HTTPRouteRule) (post : List HTTPRouteRule)
    (hrules : route.Spec.Rules = pre ++ rk :: post)
    (hpre : ∀ r ∈ pre, reachesUnresolved p.source route.Namespace r.ForwardTo = false)
    (hk : reachesUnresolved p.source route.Namespace rk.ForwardTo = true) :
    (∃ f ∈ rk.ForwardTo, ∃ name err, f.ServiceName = some name ∧
      (∀ d : DAG, d.EnsureService { Name := name, Namespace := route.Namespace } f.Port
        p.source = .error err) ∧
      (computeHTTPRoute p route).logged.getLast? = some (entryService name route.Namespace)) ∧
    (computeHTTPRoute p route).dag.clusters =
      (computeHTTPRoute p (route.withRules pre)).dag.clusters ∧
    (pre = [] → (computeHTTPRoute p route).dag.clusters = p.dag.clusters) := by
  obtain ⟨hv, hl⟩ := computeHTTPRoute_split p route pre rk post hrules hpre hk
  obtain ⟨fpre, f, fpost, name, err, h1, h2, h3, -, hf⟩ := forwardLog_unresolved _ _ _ hk
  rw [hf] at hl
  refine ⟨⟨f, by rw [h1]; simp, name, err, h2,
    fun d => (EnsureService_error_iff d _ _ _ _).2 h3, by rw [hl]; simp⟩,
    clusters_congr _ _ hv, ?_⟩
  intro hnil
  apply clusters_congr
  rw [hv, hnil]
  unfold computeHTTPRoute HTTPRoute.withRules
  by_cases h : route.Spec.TLS ≠ none
  · simp only [if_pos h, rulesLoop]
    rfl
  · simp only [if_neg h, rulesLoop]

/-- C3, amended, at the route `routeThree`: the clusters are those of its first rule. -/
theorem computeHTTPRoute_abandons_witness :
    (∀ r ∈ [ruleAB], reachesUnresolved proc0.source routeThree.Namespace r.ForwardTo = false) ∧
    reachesUnresolved proc0.source routeThree.Namespace ruleUnresolved.ForwardTo = true ∧
    (computeHTTPRoute proc0 routeThree).dag.clusters =
      (computeHTTPRoute proc0 (routeThree.withRules [ruleAB])).dag.clusters :=
  ⟨by decide, by decide,
    (computeHTTPRoute_abandons proc0 routeThree [ruleAB] ruleUnresolved [ruleRegex] rfl
      (by decide) (by decide)).2.1⟩

/-- C3 as stated fails: in the route `routeThree`, computed on the empty graph,
`EnsureService` returns an error for the target `missing:80` of the second rule
and the error is logged, and yet the graph holds the two clusters of the first
rule afterwards. -/
theorem abandons_counterexample :
    proc0.dag.EnsureService { Name := "missing", Namespace := routeThree.Namespace } 80
      proc0.source = .error "service not found" ∧
    (computeHTTPRoute proc0 routeThree).logged = [entryService "missing" "default"] ∧
    proc0.dag.clusters = [] ∧
    (computeHTTPRoute proc0 routeThree).dag.clusters =
      [{ Upstream := svc80, Protocol := "" }, { Upstream := svc80, Protocol := "" }] :=
  ⟨rfl, by decide, by decide, by decide⟩

/-! ## Virtual hosts and routes after a rule -/

theorem GetVirtualHost_congr (d d' : DAG) (h : d.virtualhosts = d'.virtualhosts) (x : String) :
    d.GetVirtualHost x = d'.GetVirtualHost x := by
  unfold DAG.GetVirtualHost; rw [h]

/-- The loop over the rules never removes a virtual host. -/
theorem rulesLoop_isSome (hosts : List String) (ns : String) (p : ServiceAPIsProcessor)
    (rules : List HTTPRouteRule) (x : String) (hx : (p.dag.GetVirtualHost x).isSome) :
    ((rulesLoop hosts ns p rules).dag.GetVirtualHost x).isSome := by
  induction rules generalizing p with
  | nil => exact hx
  | cons rule rest ih =>
    obtain ⟨-, h2, -, -⟩ := ruleRoutes_props p ns rule
    cases hr : ruleRoutes p ns rule with
    | mk p2 res =>
      rw [hr] at h2
      have hx2 : (p2.dag.GetVirtualHost x).isSome := by
        rw [GetVirtualHost_congr _ _ h2]; exact hx
      cases res with
      | none => rw [rulesLoop_cons_none hosts ns p p2 rule rest hr]; exact hx2
      | some rs =>
        rw [rulesLoop_cons_some hosts ns p p2 rule rest rs hr]
        exact ih _ (hostsLoop_isSome _ _ _ _ hx2)

theorem computeHTTPRoute_isSome (p : ServiceAPIsProcessor) (route : HTTPRoute) (x : String)
    (hx : (p.dag.GetVirtualHost x).isSome) :
    ((computeHTTPRoute p route).dag.GetVirtualHost x).isSome := by
  unfold computeHTTPRoute
  apply rulesLoop_isSome
  by_cases h : route.Spec.TLS ≠ none
  · rw [if_pos h]; exact hx
  · rw [if_neg h]; exact hx

/-- When the first rule is gone through, every host has a virtual host afterwards. -/
theorem rulesLoop_first_isSome (hosts : List String) (ns : String) (p : ServiceAPIsProcessor)
    (rule : HTTPRouteRule) (rest : List HTTPRouteRule) (x : String) (hx : x ∈ hosts)
    (h : reachesUnresolved p.source ns rule.ForwardTo = false) :
    ((rulesLoop hosts ns p (rule :: rest)).dag.GetVirtualHost x).isSome := by
  obtain ⟨p2, rs, -, hstep⟩ := rulesLoop_continue hosts ns p rule rest h
  rw [hstep]
  exact rulesLoop_isSome _ _ _ _ _ (hostsLoop_mem_isSome _ _ _ _ hx)

theorem foldl_computeHTTPRoute_source (p : ServiceAPIsProcessor) (l : List HTTPRoute) :
    (l.foldl computeHTTPRoute p).source = p.source := by
  induction l generalizing p with
  | nil => rfl
  | cons r l ih => rw [List.foldl_cons, ih, (computeHTTPRoute_props _ _).1]

theorem foldl_computeHTTPRoute_isSome (p : ServiceAPIsProcessor) (l : List HTTPRoute)
    (x : String) (hx : (p.dag.GetVirtualHost x).isSome) :
    ((l.foldl computeHTTPRoute p).dag.GetVirtualHost x).isSome := by
  induction l generalizing p with
  | nil => exact hx
  | cons r l ih => rw [List.foldl_cons]; exact ih _ (computeHTTPRoute_isSome _ _ _ hx)

theorem hostsOf_eq (route : HTTPRoute) :
    hostsOf route = if route.Spec.Hostnames = [] then ["*"] else route.Spec.Hostnames := by
  unfold hostsOf
  by_cases h : route.Spec.Hostnames = []
  · simp [h]
  · have : route.Spec.Hostnames.length ≠ 0 := fun hl => h (List.length_eq_zero.1 hl)
    rw [if_neg this, if_neg h, foldl_append_singleton (fun x => x)]
    simp

/-- C5, amended: for every HTTPRoute whose Hostnames list is empty and whose
first rule is processed without a service-resolution failure, the graph
contains a virtual host under the hostname `*` after `computeHTTPRoute` has
processed the route, and after `Run` when the route is one of the snapshot. -/
theorem computeHTTPRoute_wildcard (route : HTTPRoute) (rule : HTTPRouteRule)
    (rest : List HTTPRouteRule) (source : KubernetesCache)
    (hhosts : route.Spec.Hostnames = []) (hrules : route.Spec.Rules = rule :: rest)
    (hrule : reachesUnresolved source route.Namespace rule.ForwardTo = false) :
    (∀ p : ServiceAPIsProcessor, p.source = source →
      ((computeHTTPRoute p route).dag.GetVirtualHost "*").isSome) ∧
    (∀ logged dag, route ∈ source.httproutes →
      ((Run logged dag source).dag.GetVirtualHost "*").isSome) := by
  have h1 : ∀ p : ServiceAPIsProcessor, p.source = source →
      ((computeHTTPRoute p route).dag.GetVirtualHost "*").isSome := by
    intro p hp
    unfold computeHTTPRoute
    rw [hrules]
    apply rulesLoop_first_isSome
    · rw [hostsOf_eq, if_pos hhosts]; simp
    · by_cases h : route.Spec.TLS ≠ none
      · rw [if_pos h]; simpa [ServiceAPIsProcessor.Error, hp] using hrule
      · rw [if_neg h, hp]; exact hrule
  refine ⟨h1, ?_⟩
  intro logged dag hmem
  unfold Run
  obtain ⟨l1, l2, hl⟩ := List.append_of_mem hmem
  rw [hl, List.foldl_append, List.foldl_cons]
  apply foldl_computeHTTPRoute_isSome
  apply h1
  rw [foldl_computeHTTPRoute_source]

/-- C5, amended, at the snapshot whose one route has no hostnames and the rule `ruleAB`. -/
theorem computeHTTPRoute_wildcard_witness :
    ((Run [] DAG.empty { cache0 with httproutes := [mkRoute [] none [ruleAB]] }).dag.GetVirtualHost
      "*").isSome :=
  (computeHTTPRoute_wildcard (mkRoute [] none [ruleAB]) ruleAB []
    { cache0 with httproutes := [mkRoute [] none [ruleAB]] } rfl rfl (by decide)).2 [] DAG.empty
    (by decide)

/-- C5 as stated fails: a route without hostnames and without rules, and a
route without hostnames whose only rule cannot resolve its target, each the one
route of a snapshot, leave the graph that `Run` started from empty: there is no
virtual host under `*`. -/
theorem wildcard_counterexample :
    (mkRoute [] none []).Spec.Hostnames = [] ∧
    (Run [] DAG.empty { cache0 with httproutes := [mkRoute [] none []] }).dag.GetVirtualHost "*"
      = none ∧
    (mkRoute [] none [ruleUnresolved]).Spec.Hostnames = [] ∧
    (Run [] DAG.empty
      { cache0 with httproutes := [mkRoute [] none [ruleUnresolved]] }).dag.GetVirtualHost "*"
      = none :=
  ⟨rfl, by decide, rfl, by decide⟩

theorem find?_insertRoute (r : Route) (l : List Route) (c : Option PrefixMatchCondition) :
    (insertRoute r l).find? (fun x => decide (x.PathMatchCondition = c)) =
      if r.PathMatchCondition = c then some r
      else l.find? (fun x => decide (x.PathMatchCondition = c)) := by
  induction l with
  | nil =>
    by_cases h : r.PathMatchCondition = c <;> simp [insertRoute, h]
  | cons x xs ih =>
    unfold insertRoute
    by_cases hx : x.PathMatchCondition = r.PathMatchCondition
    · rw [if_pos hx]
      by_cases h : r.PathMatchCondition = c
      · simp [h]
      · have : ¬ x.PathMatchCondition = c := by rw [hx]; exact h
        simp [h, this]
    · rw [if_neg hx, List.find?_cons, ih]
      by_cases hxc : x.PathMatchCondition = c
      · have : ¬ r.PathMatchCondition = c := by rw [← hxc]; exact fun e => hx e.symm
        simp [hxc, this]
      · simp [hxc]

theorem route?_addRoute (v : VirtualHost) (r : Route) (c : Option PrefixMatchCondition) :
    (v.addRoute r).route? c = if r.PathMatchCondition = c then some r else v.route? c := by
  unfold VirtualHost.addRoute VirtualHost.route?
  exact find?_insertRoute r v.routes c

theorem route?_addRoutes_other (rs : List Route) (v : VirtualHost)
    (c : Option PrefixMatchCondition) (h : ∀ r ∈ rs, r.PathMatchCondition ≠ c) :
    (rs.foldl (fun v route => v.addRoute route) v).route? c = v.route? c := by
  induction rs generalizing v with
  | nil => rfl
  | cons a rs ih =>
    rw [List.foldl_cons, ih _ (fun r hr => h r (List.mem_cons_of_mem _ hr)), route?_addRoute,
      if_neg (h a (List.mem_cons_self _ _))]

/-- After routes are added of which no two differ under the same match
condition, the virtual host holds each of them under its match condition. -/
theorem route?_addRoutes_mem (rs : List Route) (v : VirtualHost)
    (huniq : ∀ r ∈ rs, ∀ r' ∈ rs, r.PathMatchCondition = r'.PathMatchCondition → r = r')
    (r : Route) (hr : r ∈ rs) :
    (rs.foldl (fun v route => v.addRoute route) v).route? r.PathMatchCondition = some r := by
  induction rs generalizing v with
  | nil => simp at hr
  | cons a rs ih =>
    rw [List.foldl_cons]
    by_cases hmem : r ∈ rs
    · exact ih _ (fun x hx y hy => huniq x (List.mem_cons_of_mem _ hx) y
        (List.mem_cons_of_mem _ hy)) hmem
    · have hra : r = a := by
        rcases List.mem_cons.1 hr with h | h
        · exact h
        · exact absurd h hmem
      subst hra
      rw [route?_addRoutes_other, route?_addRoute, if_pos rfl]
      intro r' hr' hc
      have := huniq r' (List.mem_cons_of_mem _ hr') r (List.mem_cons_self _ _) hc
      exact hmem (this ▸ hr')

theorem routes_uniq (pathPrefixes : List String) (services : List Service) :
    ∀ r ∈ routes pathPrefixes services, ∀ r' ∈ routes pathPrefixes services,
      r.PathMatchCondition = r'.PathMatchCondition → r = r' := by
  intro r hr r' hr' hc
  rw [routes_eq_map] at hr hr'
  simp only [List.mem_map] at hr hr'
  obtain ⟨a, _, rfl⟩ := hr
  obtain ⟨b, _, rfl⟩ := hr'
  simp only [Option.some.injEq, PrefixMatchCondition.mk.injEq] at hc
  rw [hc]

/-- A virtual host that holds each of the routes keeps holding them through the
loop over the hosts, and the virtual host of each host holds them after it. -/
theorem hostsLoop_routes (d : DAG) (hosts : List String) (rs : List Route)
    (huniq : ∀ r ∈ rs, ∀ r' ∈ rs, r.PathMatchCondition = r'.PathMatchCondition → r = r')
    (x : String)
    (hx : x ∈ hosts ∨ ∃ v, d.GetVirtualHost x = some v ∧
      ∀ r ∈ rs, v.route? r.PathMatchCondition = some r) :
    ∃ v, (hostsLoop d hosts rs).GetVirtualHost x = some v ∧
      ∀ r ∈ rs, v.route? r.PathMatchCondition = some r := by
  induction hosts generalizing d with
  | nil =>
    rcases hx with hx | hx
    · simp at hx
    · exact hx
  | cons h hosts ih =>
    rw [hostsLoop_cons]
    apply ih
    by_cases hxh : x = h
    · right
      rw [GetVirtualHost_hostStep, if_pos hxh]
      exact ⟨_, rfl, fun r hr => route?_addRoutes_mem rs _ huniq r hr⟩
    · rcases hx with hx | hx
      · left
        rcases List.mem_cons.1 hx with h' | h'
        · exact absurd h' hxh
        · exact h'
      · right
        rw [GetVirtualHost_hostStep, if_neg hxh]
        exact hx

/-- C6: for every HTTPRoute and every rule of it that is processed without a
service-resolution failure, the hosts are the hostnames of the route in order,
or exactly `*` when there are none; with the routes built for the rule, the
loop over the rules goes on from the graph in which every host has a virtual
host that holds each of these routes under its match condition, and in which
the virtual host of any other hostname is as it was before the rule. -/
theorem computeHTTPRoute_attach (p : ServiceAPIsProcessor) (route : HTTPRoute)
    (rule : HTTPRouteRule) (rest : List HTTPRouteRule)
    (h : reachesUnresolved p.source route.Namespace rule.ForwardTo = false) :
    hostsOf route = (if route.Spec.Hostnames = [] then ["*"] else route.Spec.Hostnames) ∧
    ∃ p2 rs, ruleRoutes p route.Namespace rule = (p2, some rs) ∧
      rulesLoop (hostsOf route) route.Namespace p (rule :: rest) =
        rulesLoop (hostsOf route) route.Namespace
          { p2 with dag := hostsLoop p2.dag (hostsOf route) rs } rest ∧
      (∀ x ∈ hostsOf route, ∃ v,
        (hostsLoop p2.dag (hostsOf route) rs).GetVirtualHost x = some v ∧ v.Name = x ∧
        ∀ r ∈ rs, v.route? r.PathMatchCondition = some r) ∧
      (∀ x, x ∉ hostsOf route →
        (hostsLoop p2.dag (hostsOf route) rs).GetVirtualHost x = p.dag.GetVirtualHost x) := by
  refine ⟨hostsOf_eq route, ?_⟩
  obtain ⟨p2, rs, hr, hstep⟩ := rulesLoop_continue (hostsOf route) route.Namespace p rule rest h
  have huniq : ∀ r ∈ rs, ∀ r' ∈ rs, r.PathMatchCondition = r'.PathMatchCondition → r = r' := by
    have h2 : (ruleRoutes p route.Namespace rule).2 = some rs := by rw [hr]
    unfold ruleRoutes at h2
    rw [matchLoop_eq] at h2
    simp only at h2
    revert h2
    cases forwardLoop { p with logged := p.logged ++ matchLog rule.Matches } route.Namespace
      rule.ForwardTo [] with
    | mk q res =>
      cases res with
      | none => intro h2; simp at h2
      | some svcs =>
        intro h2
        simp only [Option.some.injEq] at h2
        subst h2
        exact routes_uniq _ _
  have hv : p2.dag.virtualhosts = p.dag.virtualhosts := by
    have := (ruleRoutes_props p route.Namespace rule).2.1
    rw [hr] at this
    exact this
  refine ⟨p2, rs, hr, hstep, ?_, ?_⟩
  · intro x hx
    obtain ⟨v, hv1, hv2⟩ := hostsLoop_routes p2.dag (hostsOf route) rs huniq x (Or.inl hx)
    exact ⟨v, hv1, GetVirtualHost_Name _ _ _ hv1, hv2⟩
  · intro x hx
    rw [hostsLoop_other _ _ _ _ hx, GetVirtualHost_congr _ _ hv]

/-- C6 at a route with two hostnames and the rule `ruleAB`: both hosts get a
virtual host with the routes `/a` and `/b`, and `*` gets none. -/
theorem computeHTTPRoute_attach_witness :
    reachesUnresolved proc0.source "default" ruleAB.ForwardTo = false ∧
    hostsOf (mkRoute ["a.example.com", "b.example.com"] none [ruleAB]) =
      ["a.example.com", "b.example.com"] ∧
    (computeHTTPRoute proc0
      (mkRoute ["a.example.com", "b.example.com"] none [ruleAB])).dag.virtualhosts =
      [{ Name := "a.example.com", routes := routes ["/a", "/b"] [svc80] },
       { Name := "b.example.com", routes := routes ["/a", "/b"] [svc80] }] :=
  ⟨by decide,
    (computeHTTPRoute_attach proc0 (mkRoute ["a.example.com", "b.example.com"] none [ruleAB])
      ruleAB [] (by decide)).1,
    by decide⟩

/-! ## The graph as a function of the snapshot -/

theorem LookupService_ok (cache : KubernetesCache) (meta : NamespacedName) (port : Int)
    (s : Service) (h : cache.LookupService meta port = .ok s) :
    s.Namespace = meta.Namespace ∧ s.Name = meta.Name ∧ s.Port = port := by
  unfold KubernetesCache.LookupService at h
  cases hf : cache.services.find? (fun s =>
      decide (s.Namespace = meta.Namespace ∧ s.Name = meta.Name ∧ s.Port = port)) with
  | none =>
    rw [hf] at h
    simp only at h
    split at h <;> simp at h
  | some s' =>
    rw [hf] at h
    simp only [Except.ok.injEq] at h
    subst h
    simpa using List.find?_some hf

theorem EnsureService_memo (d : DAG) (meta : NamespacedName) (port : Int)
    (cache : KubernetesCache) (svc : Service) (hd : d.memoAgrees cache)
    (h : cache.LookupService meta port = .ok svc) :
    ∃ d', d.EnsureService meta port cache = .ok (svc, d') ∧ d'.memoAgrees cache ∧
      d'.virtualhosts = d.virtualhosts := by
  unfold DAG.EnsureService
  rw [h]
  simp only
  cases hg : d.GetService meta port with
  | some dagSvc =>
    have := hd meta port dagSvc hg
    rw [h] at this
    simp only [Except.ok.injEq] at this
    subst this
    exact ⟨d, rfl, hd, rfl⟩
  | none =>
    refine ⟨_, rfl, ?_, rfl⟩
    intro meta' port' s hs
    unfold DAG.GetService at hs
    simp only [List.find?_append] at hs
    cases hf : d.services.find? (fun s =>
        decide (s.Namespace = meta'.Namespace ∧ s.Name = meta'.Name ∧ s.Port = port')) with
    | some s' =>
      rw [hf] at hs
      simp at hs
      subst hs
      exact hd meta' port' s' hf
    | none =>
      rw [hf] at hs
      simp only [Option.none_or] at hs
      have hs' := List.find?_some hs
      have hmem := List.mem_of_find?_eq_some hs
      simp only [List.mem_singleton] at hmem
      subst hmem
      obtain ⟨h1, h2, h3⟩ := LookupService_ok _ _ _ _ h
      simp only [decide_eq_true_eq] at hs'
      have hm : meta' = meta := by
        cases meta; cases meta'
        simp only [NamespacedName.mk.injEq]
        simp only at h1 h2 hs'
        exact ⟨hs'.2.1.symm.trans h2, hs'.1.symm.trans h1⟩
      have hp : port' = port := hs'.2.2.symm.trans h3
      rw [hm, hp]
      exact h

theorem forwardLoop_resolve (p : ServiceAPIsProcessor) (ns : String)
    (fs : List HTTPRouteForwardTo) (acc : List Service) (hp : p.dag.memoAgrees p.source) :
    (forwardLoop p ns fs acc).2 = resolveTargets p.source ns fs acc ∧
    (forwardLoop p ns fs acc).1.dag.memoAgrees p.source := by
  induction fs generalizing p acc with
  | nil => exact ⟨rfl, hp⟩
  | cons f fs ih =>
    unfold forwardLoop resolveTargets
    cases hn : f.ServiceName with
    | none => exact ⟨rfl, hp⟩
    | some name =>
      simp only
      cases hl : p.source.LookupService { Name := name, Namespace := ns } f.Port with
      | error e =>
        rw [(EnsureService_error_iff _ _ _ _ _).2 hl]
        exact ⟨rfl, hp⟩
      | ok s =>
        obtain ⟨d', h1, h2, -⟩ := EnsureService_memo _ _ _ _ _ hp hl
        rw [h1]
        exact ih { p with dag := d' } (acc ++ [s]) h2

theorem ruleRoutes_resolve (p : ServiceAPIsProcessor) (ns : String) (rule : HTTPRouteRule)
    (hp : p.dag.memoAgrees p.source) :
    (ruleRoutes p ns rule).2 = routesOfRule p.source ns rule ∧
    (ruleRoutes p ns rule).1.dag.memoAgrees p.source := by
  unfold ruleRoutes routesOfRule
  rw [matchLoop_eq]
  simp only
  have h := forwardLoop_resolve { p with logged := p.logged ++ matchLog rule.Matches } ns
    rule.ForwardTo [] hp
  simp only at h
  revert h
  cases forwardLoop { p with logged := p.logged ++ matchLog rule.Matches } ns rule.ForwardTo [] with
  | mk p2 res =>
    intro h
    obtain ⟨h1, h2⟩ := h
    simp only at h1 h2
    rw [← h1]
    cases res with
    | none => exact ⟨rfl, h2⟩
    | some svcs => exact ⟨rfl, h2⟩

theorem memoAgrees_congr (d d' : DAG) (source : KubernetesCache) (h : d'.services = d.services)
    (hd : d.memoAgrees source) : d'.memoAgrees source := by
  intro meta port s hs
  apply hd meta port s
  unfold DAG.GetService at hs ⊢
  rw [← h]; exact hs

theorem route?_addRoutes (rs : List Route) (v : VirtualHost) (c : Option PrefixMatchCondition) :
    (rs.foldl (fun v route => v.addRoute route) v).route? c = routeAt c (v.route? c) rs := by
  unfold routeAt
  induction rs generalizing v with
  | nil => rfl
  | cons a rs ih => rw [List.foldl_cons, List.foldl_cons, ih, route?_addRoute]

theorem GetRoute_hostStep (d : DAG) (h : String) (rs : List Route) (x : String)
    (c : Option PrefixMatchCondition) :
    ((d.EnsureVirtualHost h).updateVirtualHost h
        (fun v => rs.foldl (fun v route => v.addRoute route) v)).GetRoute x c =
      if x = h then routeAt c (d.GetRoute x c) rs else d.GetRoute x c := by
  unfold DAG.GetRoute
  rw [GetVirtualHost_hostStep]
  by_cases hx : x = h
  · subst hx
    simp only [if_true, Option.some_bind, route?_addRoutes]
    cases d.GetVirtualHost x with
    | none => rfl
    | some v => rfl
  · simp only [if_neg hx]

theorem GetRoute_hostsLoop (d : DAG) (hosts : List String) (rs : List Route) (x : String)
    (c : Option PrefixMatchCondition) :
    (hostsLoop d hosts rs).GetRoute x c = hostsAt x c hosts rs (d.GetRoute x c) := by
  unfold hostsAt
  induction hosts generalizing d with
  | nil => rfl
  | cons h hosts ih => rw [hostsLoop_cons, ih, GetRoute_hostStep, List.foldl_cons]

theorem GetRoute_congr (d d' : DAG) (h : d.virtualhosts = d'.virtualhosts) (x : String)
    (c : Option PrefixMatchCondition) : d.GetRoute x c = d'.GetRoute x c := by
  unfold DAG.GetRoute; rw [GetVirtualHost_congr d d' h]

theorem rulesLoop_GetRoute (hosts : List String) (ns : String) (p : ServiceAPIsProcessor)
    (rules : List HTTPRouteRule) (x : String) (c : Option PrefixMatchCondition)
    (hp : p.dag.memoAgrees p.source) :
    (rulesLoop hosts ns p rules).dag.GetRoute x c =
      rulesAt p.source x c hosts ns rules (p.dag.GetRoute x c) ∧
    (rulesLoop hosts ns p rules).dag.memoAgrees p.source := by
  induction rules generalizing p with
  | nil => exact ⟨rfl, hp⟩
  | cons rule rest ih =>
    obtain ⟨h1, h2, -, -⟩ := ruleRoutes_props p ns rule
    obtain ⟨h3, h4⟩ := ruleRoutes_resolve p ns rule hp
    unfold rulesAt
    cases hr : ruleRoutes p ns rule with
    | mk p2 res =>
      rw [hr] at h1 h2 h3 h4
      simp only at h1 h2 h3 h4
      rw [← h3]
      cases res with
      | none =>
        rw [rulesLoop_cons_none hosts ns p p2 rule rest hr]
        exact ⟨GetRoute_congr _ _ h2 x c, h4⟩
      | some rs =>
        rw [rulesLoop_cons_some hosts ns p p2 rule rest rs hr]
        have hm : (hostsLoop p2.dag hosts rs).memoAgrees p2.source := by
          rw [h1]
          exact memoAgrees_congr _ _ _ (hostsLoop_services _ _ _) h4
        obtain ⟨ih1, ih2⟩ := ih { p2 with dag := hostsLoop p2.dag hosts rs } hm
        simp only at ih1 ih2
        rw [ih1, GetRoute_hostsLoop, GetRoute_congr _ _ h2 x c, h1]
        exact ⟨rfl, h1 ▸ ih2⟩

theorem computeHTTPRoute_GetRoute (p : ServiceAPIsProcessor) (route : HTTPRoute) (x : String)
    (c : Option PrefixMatchCondition) (hp : p.dag.memoAgrees p.source) :
    (computeHTTPRoute p route).dag.GetRoute x c =
      computeAt p.source x c (p.dag.GetRoute x c) route ∧
    (computeHTTPRoute p route).dag.memoAgrees p.source := by
  unfold computeHTTPRoute computeAt
  by_cases h : route.Spec.TLS ≠ none
  · rw [if_pos h]
    exact rulesLoop_GetRoute _ _ (p.Error msgTLS) _ x c hp
  · rw [if_neg h]
    exact rulesLoop_GetRoute _ _ p _ x c hp

theorem foldl_GetRoute (p : ServiceAPIsProcessor) (l : List HTTPRoute) (x : String)
    (c : Option PrefixMatchCondition) (hp : p.dag.memoAgrees p.source) :
    (l.foldl computeHTTPRoute p).dag.GetRoute x c =
      l.foldl (computeAt p.source x c) (p.dag.GetRoute x c) := by
  induction l generalizing p with
  | nil => rfl
  | cons r l ih =>
    obtain ⟨h1, h2⟩ := computeHTTPRoute_GetRoute p r x c hp
    have hs := (computeHTTPRoute_props p r).1
    rw [List.foldl_cons, List.foldl_cons, ih _ (hs ▸ h2), hs, h1]

/-! ## Where a route does not write -/

theorem routeAt_id (c : Option PrefixMatchCondition) (held : Option Route) (rs : List Route)
    (h : ∀ r ∈ rs, r.PathMatchCondition ≠ c) : routeAt c held rs = held := by
  unfold routeAt
  induction rs generalizing held with
  | nil => rfl
  | cons a rs ih =>
    rw [List.foldl_cons, if_neg (h a (List.mem_cons_self _ _))]
    exact ih _ (fun r hr => h r (List.mem_cons_of_mem _ hr))

theorem hostsAt_id (x : String) (c : Option PrefixMatchCondition) (hosts : List String)
    (rs : List Route) (held : Option Route)
    (h : x ∉ hosts ∨ ∀ r ∈ rs, r.PathMatchCondition ≠ c) : hostsAt x c hosts rs held = held := by
  unfold hostsAt
  induction hosts generalizing held with
  | nil => rfl
  | cons a hosts ih =>
    rw [List.foldl_cons]
    rcases h with h | h
    · have hxa : x ≠ a := fun e => h (e ▸ List.mem_cons_self _ _)
      rw [if_neg hxa]
      exact ih _ (Or.inl (fun hm => h (List.mem_cons_of_mem _ hm)))
    · rw [routeAt_id c held rs h, ite_self]
      exact ih _ (Or.inr h)

theorem routesOfRule_cond (source : KubernetesCache) (ns : String) (rule : HTTPRouteRule)
    (rs : List Route) (h : routesOfRule source ns rule = some rs) :
    ∀ r ∈ rs, ∃ pfx ∈ pathPrefixesOfRule rule, r.PathMatchCondition = some { Prefix := pfx } := by
  unfold routesOfRule at h
  cases hres : resolveTargets source ns rule.ForwardTo [] with
  | none => rw [hres] at h; simp at h
  | some svcs =>
    rw [hres] at h
    simp only [Option.map_some', Option.some.injEq] at h
    subst h
    intro r hr
    rw [routes_eq_map] at hr
    simp only [List.mem_map] at hr
    obtain ⟨pfx, hpfx, rfl⟩ := hr
    exact ⟨pfx, hpfx, rfl⟩

theorem rulesAt_id (source : KubernetesCache) (x : String) (c : Option PrefixMatchCondition)
    (hosts : List String) (ns : String) (rules : List HTTPRouteRule) (held : Option Route)
    (h : x ∉ hosts ∨ ∀ rule ∈ rules, ∀ pfx ∈ pathPrefixesOfRule rule,
      c ≠ some { Prefix := pfx }) :
    rulesAt source x c hosts ns rules held = held := by
  induction rules generalizing held with
  | nil => rfl
  | cons rule rest ih =>
    unfold rulesAt
    cases hr : routesOfRule source ns rule with
    | none => rfl
    | some rs =>
      simp only
      rw [hostsAt_id x c hosts rs held]
      · apply ih
        rcases h with h | h
        · exact Or.inl h
        · exact Or.inr (fun r hr => h r (List.mem_cons_of_mem _ hr))
      · rcases h with h | h
        · exact Or.inl h
        · right
          intro r hrm hc
          obtain ⟨pfx, hpfx, hcond⟩ := routesOfRule_cond source ns rule rs hr r hrm
          exact h rule (List.mem_cons_self _ _) pfx hpfx (hc ▸ hcond)

theorem computeAt_id (source : KubernetesCache) (x : String) (c : Option PrefixMatchCondition)
    (held : Option Route) (route : HTTPRoute)
    (h : x ∉ hostsOf route ∨ ∀ pfx ∈ pathPrefixesOf route, c ≠ some { Prefix := pfx }) :
    computeAt source x c held route = held := by
  unfold computeAt
  apply rulesAt_id
  rcases h with h | h
  · exact Or.inl h
  · right
    intro rule hrule pfx hpfx
    apply h
    unfold pathPrefixesOf
    exact List.mem_flatMap.2 ⟨rule, hrule, hpfx⟩

/-! ## The visiting order of the HTTPRoutes -/

theorem rulesLoop_other (hosts : List String) (ns : String) (p : ServiceAPIsProcessor)
    (rules : List HTTPRouteRule) (x : String) (hx : x ∉ hosts) :
    (rulesLoop hosts ns p rules).dag.GetVirtualHost x = p.dag.GetVirtualHost x := by
  induction rules generalizing p with
  | nil => rfl
  | cons rule rest ih =>
    obtain ⟨-, h2, -, -⟩ := ruleRoutes_props p ns rule
    cases hr : ruleRoutes p ns rule with
    | mk p2 res =>
      rw [hr] at h2
      cases res with
      | none =>
        rw [rulesLoop_cons_none hosts ns p p2 rule rest hr]
        exact GetVirtualHost_congr _ _ h2 x
      | some rs =>
        rw [rulesLoop_cons_some hosts ns p p2 rule rest rs hr, ih, hostsLoop_other _ _ _ _ hx]
        exact GetVirtualHost_congr _ _ h2 x

theorem computeHTTPRoute_isSome_eq (p : ServiceAPIsProcessor) (route : HTTPRoute) (x : String) :
    ((computeHTTPRoute p route).dag.GetVirtualHost x).isSome =
      ((p.dag.GetVirtualHost x).isSome || ensuresHost p.source x route) := by
  cases hb : (p.dag.GetVirtualHost x).isSome with
  | true => simpa using computeHTTPRoute_isSome p route x hb
  | false =>
    simp only [Bool.false_or]
    have key : ∀ q : ServiceAPIsProcessor, q.source = p.source →
        q.dag.virtualhosts = p.dag.virtualhosts →
        ((rulesLoop (hostsOf route) route.Namespace q route.Spec.Rules).dag.GetVirtualHost
          x).isSome = ensuresHost p.source x route := by
      intro q hqs hqv
      unfold ensuresHost
      by_cases hx : x ∈ hostsOf route
      · simp only [hx, decide_True, Bool.true_and]
        cases hrules : route.Spec.Rules with
        | nil =>
          simp only [rulesLoop]
          rw [GetVirtualHost_congr _ _ hqv, hb]
        | cons rule rest =>
          simp only
          cases hu : reachesUnresolved p.source route.Namespace rule.ForwardTo with
          | true =>
            obtain ⟨h1, -, -⟩ := rulesLoop_abort (hostsOf route) route.Namespace q rule rest
              (by rw [hqs]; exact hu)
            rw [GetVirtualHost_congr _ _ (h1.trans hqv), hb]
            rfl
          | false =>
            simpa using rulesLoop_first_isSome (hostsOf route) route.Namespace q rule rest x hx
              (by rw [hqs]; exact hu)
      · simp only [hx, decide_False, Bool.false_and]
        rw [rulesLoop_other _ _ _ _ _ hx, GetVirtualHost_congr _ _ hqv, hb]
    unfold computeHTTPRoute
    by_cases h : route.Spec.TLS ≠ none
    · rw [if_pos h]; exact key _ rfl rfl
    · rw [if_neg h]; exact key _ rfl rfl

theorem foldl_isSome_eq (p : ServiceAPIsProcessor) (l : List HTTPRoute) (x : String) :
    ((l.foldl computeHTTPRoute p).dag.GetVirtualHost x).isSome =
      ((p.dag.GetVirtualHost x).isSome || l.any (ensuresHost p.source x)) := by
  induction l generalizing p with
  | nil => simp
  | cons r l ih =>
    rw [List.foldl_cons, ih, computeHTTPRoute_isSome_eq, (computeHTTPRoute_props p r).1,
      List.any_cons, Bool.or_assoc]

theorem foldl_logged (p : ServiceAPIsProcessor) (l : List HTTPRoute) :
    (l.foldl computeHTTPRoute p).logged = p.logged ++ l.flatMap (routeLog p.source) := by
  induction l generalizing p with
  | nil => simp
  | cons r l ih =>
    obtain ⟨h1, h2⟩ := computeHTTPRoute_props p r
    rw [List.foldl_cons, ih, h1, h2, List.flatMap_cons, List.append_assoc]

theorem memoAgrees_empty (source : KubernetesCache) : DAG.empty.memoAgrees source := by
  intro meta port s hs
  simp [DAG.GetService, DAG.empty] at hs

/-! ### Only the services of the snapshot are looked up -/

theorem LookupService_services (source source' : KubernetesCache)
    (hsvc : source'.services = source.services) (meta : NamespacedName) (port : Int) :
    source'.LookupService meta port = source.LookupService meta port := by
  unfold KubernetesCache.LookupService; rw [hsvc]

theorem reachesUnresolved_services (source source' : KubernetesCache)
    (hsvc : source'.services = source.services) (ns : String) (fs : List HTTPRouteForwardTo) :
    reachesUnresolved source' ns fs = reachesUnresolved source ns fs := by
  induction fs with
  | nil => rfl
  | cons f fs ih =>
    unfold reachesUnresolved
    simp only [LookupService_services source source' hsvc, ih]

theorem forwardLog_services (source source' : KubernetesCache)
    (hsvc : source'.services = source.services) (ns : String) (fs : List HTTPRouteForwardTo) :
    forwardLog source' ns fs = forwardLog source ns fs := by
  induction fs with
  | nil => rfl
  | cons f fs ih =>
    unfold forwardLog
    simp only [LookupService_services source source' hsvc, ih]

theorem routeLog_services (source source' : KubernetesCache)
    (hsvc : source'.services = source.services) (route : HTTPRoute) :
    routeLog source' route = routeLog source route := by
  have hR : ∀ rules, rulesLog source' route.Namespace rules =
      rulesLog source route.Namespace rules := by
    intro rules
    induction rules with
    | nil => rfl
    | cons rule rest ih =>
      unfold rulesLog
      rw [forwardLog_services source source' hsvc, reachesUnresolved_services source source' hsvc,
        ih]
  unfold routeLog; rw [hR]

theorem resolveTargets_services (source source' : KubernetesCache)
    (hsvc : source'.services = source.services) (ns : String) (fs : List HTTPRouteForwardTo)
    (acc : List Service) : resolveTargets source' ns fs acc = resolveTargets source ns fs acc := by
  induction fs generalizing acc with
  | nil => rfl
  | cons f fs ih =>
    unfold resolveTargets
    simp only [LookupService_services source source' hsvc, ih]

theorem computeAt_services (source source' : KubernetesCache)
    (hsvc : source'.services = source.services) (x : String) (c : Option PrefixMatchCondition)
    (held : Option Route) (route : HTTPRoute) :
    computeAt source' x c held route = computeAt source x c held route := by
  have hR : ∀ rules held, rulesAt source' x c (hostsOf route) route.Namespace rules held =
      rulesAt source x c (hostsOf route) route.Namespace rules held := by
    intro rules
    induction rules with
    | nil => intro held; rfl
    | cons rule rest ih =>
      intro held
      unfold rulesAt routesOfRule
      simp only [resolveTargets_services source source' hsvc, ih]
  unfold computeAt; rw [hR]

theorem ensuresHost_services (source source' : KubernetesCache)
    (hsvc : source'.services = source.services) (x : String) (route : HTTPRoute) :
    ensuresHost source' x route = ensuresHost source x route := by
  unfold ensuresHost
  simp only [reachesUnresolved_services source source' hsvc]

/-- C8, amended: for two visiting orders of the HTTPRoutes of one snapshot, `Run`
on a fresh empty graph logs the same entries up to their order, and leaves a
virtual host under the same hostnames; and when no two different HTTPRoutes of
the snapshot that share a host have a prefix match with the same path prefix,
the graph holds the same route, with the same clusters, under every hostname and
match condition. -/
theorem Run_order (source source' : KubernetesCache) (logged : List LogEntry)
    (hsvc : source'.services = source.services)
    (hperm : source'.httproutes.Perm source.httproutes) :
    (Run logged DAG.empty source').logged.Perm (Run logged DAG.empty source).logged ∧
    (∀ x, ((Run logged DAG.empty source').dag.GetVirtualHost x).isSome =
      ((Run logged DAG.empty source).dag.GetVirtualHost x).isSome) ∧
    ((∀ r1 ∈ source.httproutes, ∀ r2 ∈ source.httproutes, r1 ≠ r2 →
        ∀ x, x ∈ hostsOf r1 → x ∈ hostsOf r2 →
          ∀ pfx ∈ pathPrefixesOf r1, pfx ∉ pathPrefixesOf r2) →
      ∀ x c, (Run logged DAG.empty source').dag.GetRoute x c =
        (Run logged DAG.empty source).dag.GetRoute x c) := by
  refine ⟨?_, ?_, ?_⟩
  · unfold Run
    rw [foldl_logged, foldl_logged]
    apply List.Perm.append_left
    have : routeLog source' = routeLog source := funext (routeLog_services source source' hsvc)
    simp only [this]
    exact List.Perm.flatMap_right _ hperm
  · intro x
    unfold Run
    rw [foldl_isSome_eq, foldl_isSome_eq]
    have : ensuresHost source' x = ensuresHost source x :=
      funext (ensuresHost_services source source' hsvc x)
    simp only [this]
    congr 1
    rw [Bool.eq_iff_iff, List.any_eq_true, List.any_eq_true]
    exact ⟨fun ⟨r, hr, h⟩ => ⟨r, hperm.mem_iff.1 hr, h⟩, fun ⟨r, hr, h⟩ => ⟨r, hperm.mem_iff.2 hr, h⟩⟩
  · intro hdisj x c
    unfold Run
    rw [foldl_GetRoute _ _ _ _ (memoAgrees_empty _), foldl_GetRoute _ _ _ _ (memoAgrees_empty _)]
    have : computeAt source' x c = computeAt source x c := by
      funext held route
      exact computeAt_services source source' hsvc x c held route
    simp only [this]
    apply List.Perm.foldl_eq' hperm
    intro r1 hr1 r2 hr2 held
    have hr1' := hperm.mem_iff.1 hr1
    have hr2' := hperm.mem_iff.1 hr2
    by_cases heq : r1 = r2
    · rw [heq]
    · by_cases h1 : x ∈ hostsOf r1
      · by_cases h2 : x ∈ hostsOf r2
        · by_cases hc : ∀ pfx ∈ pathPrefixesOf r1, c ≠ some { Prefix := pfx }
          · rw [computeAt_id source x c _ r1 (Or.inr hc), computeAt_id source x c _ r1 (Or.inr hc)]
          · have hc2 : ∀ pfx ∈ pathPrefixesOf r2, c ≠ some { Prefix := pfx } := by
              intro pfx hpfx hcp
              apply hc
              intro pfx' hpfx' hcp'
              rw [hcp] at hcp'
              simp only [Option.some.injEq, PrefixMatchCondition.mk.injEq] at hcp'
              exact hdisj r1 hr1' r2 hr2' heq x h1 h2 pfx' hpfx' (hcp' ▸ hpfx)
            rw [computeAt_id source x c _ r2 (Or.inr hc2),
              computeAt_id source x c _ r2 (Or.inr hc2)]
        · rw [computeAt_id source x c _ r2 (Or.inl h2), computeAt_id source x c _ r2 (Or.inl h2)]
      · rw [computeAt_id source x c _ r1 (Or.inl h1), computeAt_id source x c _ r1 (Or.inl h1)]

/-- C8, amended, at the snapshot with the routes `routeToSvc` (host `*`) and
`routeOnA` (host `a.example.com`), visited in both orders. -/
theorem Run_order_witness :
    (Run [] DAG.empty { cache0 with httproutes := [routeOnA, routeToSvc] }).logged.Perm
      (Run [] DAG.empty { cache0 with httproutes := [routeToSvc, routeOnA] }).logged ∧
    (∀ x c, (Run [] DAG.empty { cache0 with httproutes := [routeOnA, routeToSvc] }).dag.GetRoute x c
      = (Run [] DAG.empty { cache0 with httproutes := [routeToSvc, routeOnA] }).dag.GetRoute x c) ∧
    (Run [] DAG.empty { cache0 with httproutes := [routeOnA, routeToSvc] }).logged =
      [entryTLS, entryServiceName] :=
  ⟨(Run_order { cache0 with httproutes := [routeToSvc, routeOnA] }
      { cache0 with httproutes := [routeOnA, routeToSvc] } [] rfl (List.Perm.swap _ _ _)).1,
    (Run_order { cache0 with httproutes := [routeToSvc, routeOnA] }
      { cache0 with httproutes := [routeOnA, routeToSvc] } [] rfl (List.Perm.swap _ _ _)).2.2
      (by
        intro r1 h1 r2 h2 hne x hx1 hx2
        have e1 : r1 = routeToSvc ∨ r1 = routeOnA := by simpa using h1
        have e2 : r2 = routeToSvc ∨ r2 = routeOnA := by simpa using h2
        have hs : hostsOf routeToSvc = ["*"] := by decide
        have ha : hostsOf routeOnA = ["a.example.com"] := by decide
        rcases e1 with rfl | rfl <;> rcases e2 with rfl | rfl
        · exact absurd rfl hne
        · rw [hs] at hx1; rw [ha] at hx2
          rw [List.mem_singleton] at hx1 hx2
          exact absurd (hx1.symm.trans hx2) (by decide)
        · rw [ha] at hx1; rw [hs] at hx2
          rw [List.mem_singleton] at hx1 hx2
          exact absurd (hx2.symm.trans hx1) (by decide)
        · exact absurd rfl hne),
    by decide⟩

/-- C8 as stated fails: the routes `routeToSvc` and `routeToOther` both put a
route for the prefix `/` under the host `*`. Visited in this order, `Run` on the
empty graph leaves the route to `other:8080` there; visited in the other order,
the route to `svc:80`. -/
theorem order_counterexample :
    [routeToOther, routeToSvc].Perm [routeToSvc, routeToOther] ∧
    (Run [] DAG.empty { cache0 with httproutes := [routeToSvc, routeToOther] }).dag.virtualhosts =
      [{ Name := "*", routes := routes ["/"] [other8080] }] ∧
    (Run [] DAG.empty { cache0 with httproutes := [routeToOther, routeToSvc] }).dag.virtualhosts =
      [{ Name := "*", routes := routes ["/"] [svc80] }] ∧
    routes ["/"] [other8080] ≠ routes ["/"] [svc80] :=
  ⟨List.Perm.swap _ _ _, by decide, by decide, by decide⟩

/-! ## The root namespaces -/

theorem SplitComma_ne_nil (s : List Char) : SplitComma s ≠ [] := by
  cases s with
  | nil => simp [SplitComma]
  | cons c cs =>
    unfold SplitComma
    by_cases h : c = ','
    · simp [h]
    · rw [if_neg h]
      cases SplitComma cs <;> simp

theorem intercalate_cons_cons (sep a b : List Char) (l : List (List Char)) :
    List.intercalate sep (a :: b :: l) = a ++ sep ++ List.intercalate sep (b :: l) := by
  simp [List.intercalate, List.intersperse]

theorem intercalate_SplitComma (s : List Char) : List.intercalate [','] (SplitComma s) = s := by
  induction s with
  | nil => simp [SplitComma, List.intercalate, List.intersperse]
  | cons c cs ih =>
    unfold SplitComma
    by_cases h : c = ','
    · rw [if_pos h]
      have hne := SplitComma_ne_nil cs
      cases hs : SplitComma cs with
      | nil => exact absurd hs hne
      | cons f fs =>
        rw [hs] at ih
        rw [intercalate_cons_cons, ih, h]
        rfl
    · rw [if_neg h]
      have hne := SplitComma_ne_nil cs
      cases hs : SplitComma cs with
      | nil => exact absurd hs hne
      | cons f fs =>
        rw [hs] at ih
        simp only
        cases fs with
        | nil =>
          simp only [List.intercalate, List.intersperse, List.flatten, List.append_nil] at ih ⊢
          rw [ih]
        | cons g gs =>
          rw [intercalate_cons_cons] at ih ⊢
          rw [← ih]
          simp

theorem SplitComma_no_comma (s : List Char) : ∀ f ∈ SplitComma s, ',' ∉ f := by
  induction s with
  | nil => simp [SplitComma]
  | cons c cs ih =>
    unfold SplitComma
    by_cases h : c = ','
    · rw [if_pos h]
      intro f hf
      rcases List.mem_cons.1 hf with rfl | hf
      · simp
      · exact ih f hf
    · rw [if_neg h]
      cases hs : SplitComma cs with
      | nil => simp; exact fun e => h e.symm
      | cons g gs =>
        rw [hs] at ih
        intro f hf
        simp only at hf
        rcases List.mem_cons.1 hf with rfl | hf
        · intro hm
          rcases List.mem_cons.1 hm with e | hm
          · exact h e.symm
          · exact ih g (List.mem_cons_self _ _) hm
        · exact ih f (List.mem_cons_of_mem _ hf)

theorem SplitComma_length (s : List Char) : (SplitComma s).length = s.count ',' + 1 := by
  induction s with
  | nil => simp [SplitComma]
  | cons c cs ih =>
    unfold SplitComma
    by_cases h : c = ','
    · rw [if_pos h, h, List.length_cons, ih, List.count_cons_self]
    · have hc : List.count ',' (c :: cs) = List.count ',' cs := by
        simp [List.count_cons, h]
      rw [if_neg h, hc]
      cases hs : SplitComma cs with
      | nil => exact absurd hs (SplitComma_ne_nil cs)
      | cons g gs => rw [hs] at ih; simpa using ih

theorem TrimSpace_eq_nil_iff (s : List Char) : TrimSpace s = [] ↔ ∀ c ∈ s, isSpace c = true := by
  unfold TrimSpace
  rw [List.reverse_eq_nil_iff, List.dropWhile_eq_nil_iff]
  constructor
  · intro h
    rw [← List.dropWhile_eq_nil_iff]
    apply List.eq_nil_of_length_eq_zero
    cases hd : List.dropWhile isSpace s with
    | nil => rfl
    | cons a l =>
      have ha : isSpace a = true := h a (by rw [hd]; simp)
      have hn := List.head?_dropWhile_not isSpace s
      rw [hd] at hn
      simp [ha] at hn
  · intro h c hc
    have : List.dropWhile isSpace s = [] := List.dropWhile_eq_nil_iff.2 h
    rw [this] at hc
    simp at hc

/-- What `TrimSpace` removes is white space on the two sides, and what it
leaves neither begins nor ends with white space. -/
theorem TrimSpace_spec (s : List Char) :
    ∃ l r, s = l ++ TrimSpace s ++ r ∧ (∀ c ∈ l, isSpace c = true) ∧
      (∀ c ∈ r, isSpace c = true) ∧
      (∀ c, (TrimSpace s).head? = some c → isSpace c = false) ∧
      (∀ c, (TrimSpace s).getLast? = some c → isSpace c = false) := by
  have h1 := List.takeWhile_append_dropWhile isSpace s
  have h2 := List.takeWhile_append_dropWhile isSpace (s.dropWhile isSpace).reverse
  have h3 : s.dropWhile isSpace =
      TrimSpace s ++ ((s.dropWhile isSpace).reverse.takeWhile isSpace).reverse := by
    have := congrArg List.reverse h2
    rw [List.reverse_append, List.reverse_reverse] at this
    exact this.symm
  refine ⟨s.takeWhile isSpace, ((s.dropWhile isSpace).reverse.takeWhile isSpace).reverse, ?_,
    ?_, ?_, ?_, ?_⟩
  · rw [List.append_assoc, ← h3, h1]
  · intro c hc; exact List.mem_takeWhile_imp hc
  · intro c hc; exact List.mem_takeWhile_imp (List.mem_reverse.1 hc)
  · intro c hc
    have hn := List.head?_dropWhile_not isSpace s
    cases ht : TrimSpace s with
    | nil => rw [ht] at hc; simp at hc
    | cons a t =>
      rw [ht] at hc h3
      simp only [List.head?_cons, Option.some.injEq] at hc
      subst hc
      rw [h3] at hn
      simp only [List.cons_append, List.head?_cons] at hn
      simpa using hn
  · intro c hc
    have hn := List.head?_dropWhile_not isSpace (s.dropWhile isSpace).reverse
    unfold TrimSpace at hc
    rw [List.getLast?_reverse] at hc
    rw [hc] at hn
    simpa using hn

/-- C9: for every string `rootNamespaces`, `proxyRootNamespaces` returns nil
when the string is empty or consists only of white space, and otherwise the
comma-separated fields of the string, in order and one more than there are
commas, each with its leading and trailing white space removed (what is removed
from a field is white space on its two sides, and what is left neither begins
nor ends with white space). The five cases of the test table hold: `""` and
`" \t "` give nil, `"prod1, prod2, prod3 "` gives `prod1`, `prod2`, `prod3`. -/
theorem proxyRootNamespaces_spec (rootNamespaces : String) :
    ((∀ c ∈ rootNamespaces.data, isSpace c = true) → proxyRootNamespaces rootNamespaces = []) ∧
    ((∃ c ∈ rootNamespaces.data, isSpace c = false) →
      ∃ fields : List (List Char),
        List.intercalate [','] fields = rootNamespaces.data ∧
        (∀ f ∈ fields, ',' ∉ f) ∧
        fields.length = rootNamespaces.data.count ',' + 1 ∧
        proxyRootNamespaces rootNamespaces = fields.map (fun f => String.mk (TrimSpace f)) ∧
        ∀ f ∈ fields, ∃ l r, f = l ++ TrimSpace f ++ r ∧ (∀ c ∈ l, isSpace c = true) ∧
          (∀ c ∈ r, isSpace c = true) ∧
          (∀ c, (TrimSpace f).head? = some c → isSpace c = false) ∧
          (∀ c, (TrimSpace f).getLast? = some c → isSpace c = false)) ∧
    proxyRootNamespaces "" = [] ∧
    proxyRootNamespaces " \t " = [] ∧
    proxyRootNamespaces "projectcontour" = ["projectcontour"] ∧
    proxyRootNamespaces "prod1,prod2,prod3" = ["prod1", "prod2", "prod3"] ∧
    proxyRootNamespaces "prod1, prod2, prod3 " = ["prod1", "prod2", "prod3"] := by
  refine ⟨?_, ?_, by decide, by decide, by decide, by decide, by decide⟩
  · intro h
    unfold proxyRootNamespaces
    rw [if_pos ((TrimSpace_eq_nil_iff _).2 h)]
  · intro h
    obtain ⟨c, hc, hsp⟩ := h
    have hne : ¬ TrimSpace rootNamespaces.data = [] := by
      intro hnil
      have := (TrimSpace_eq_nil_iff _).1 hnil c hc
      rw [hsp] at this
      exact absurd this (by decide)
    refine ⟨SplitComma rootNamespaces.data, intercalate_SplitComma _, SplitComma_no_comma _,
      SplitComma_length _, ?_, fun f _ => TrimSpace_spec f⟩
    unfold proxyRootNamespaces
    rw [if_neg hne]

end Contour
